import Mathlib

/-!
# ROPL interpreter (src/ROPL.cpp): a shallow embedding

The C++ program is a pull-based scanner (`Lexer`), a recursive-descent
evaluator that parses and evaluates in lockstep (`Parser`), and a flat
variable store (`std::unordered_map<std::string, int>`).

Conventions of the embedding:

* a `std::string` is a `List Char`; `std::isdigit`, `std::isalpha` and
  `std::isalnum` are the "C"-locale classifications (`Char.isDigit`,
  `Char.isAlpha`, `Char.isAlphanum`); a character outside ASCII stands for
  its bytes, none of which is in a class;
* an `int` is an `Int`; the three operations whose result does not fit in 32
  bits, division by zero and `INT_MIN / -1` have no defined behaviour in C++
  and yield `Error.UndefinedBehaviour`;
* a thrown exception is `Result.error`; the recursive procedures and loops of
  the evaluator take a fuel argument and yield `Result.outOfFuel` when it is
  exhausted.
-/

namespace ROPL

/-- The enumeration `TokenType` (ROPL.cpp lines 9-25). -/
inductive TokenType
  | NUMBER | PLUS | MINUS | MULTIPLY | DIVIDE | LPAREN | RPAREN | ASSIGN
  | VARIABLE | IF | ELSE | WHILE | FUNCTION | CALL | END
  deriving DecidableEq, Repr

/-- The record `Token` (lines 27-30): a kind and its text. -/
structure Token where
  type : TokenType
  value : List Char
  deriving DecidableEq, Repr

/-- The ways a run can stop without a result.  The first three are the
`std::runtime_error`s thrown by the program ("Invalid character",
"Unexpected token", "Undefined variable"); `OutOfRange` and `InvalidArgument`
are the exceptions of `std::stoi`; `UndefinedBehaviour` stands for signed
overflow and for the unguarded integer division by zero (or `INT_MIN / -1`),
which throw nothing. -/
inductive Error
  | InvalidCharacter | UnexpectedToken | UndefinedVariable
  | OutOfRange | InvalidArgument | UndefinedBehaviour
  deriving DecidableEq, Repr

/-- Outcome of a computation: a value, a failure, or exhausted fuel. -/
inductive Result (α : Type)
  | ok : α → Result α
  | error : Error → Result α
  | outOfFuel : Result α
  deriving DecidableEq, Repr

/-- Sequencing: a failure or exhausted fuel ends the computation. -/
def Result.bind {α β : Type} : Result α → (α → Result β) → Result β
  | .ok a, f => f a
  | .error e, _ => .error e
  | .outOfFuel, _ => .outOfFuel

/-- The member data of `Lexer` (lines 34-35): the buffer and the cursor. -/
structure Lexer where
  input : List Char
  position : Nat
  deriving DecidableEq, Repr

/-- The two inner loops of `Lexer::getNextToken` (lines 46-50 and 56-60):
while the current character satisfies `p`, append it to the lexeme and advance
the cursor.  The first argument is the text from the cursor on; when it is
exhausted the C++ code reads `input[input.size()]`, the character `'\0'`,
which is in neither class, so the loop stops. -/
def scanRun (p : Char → Bool) : List Char → Nat → List Char → List Char × Nat
  | [], position, lexeme => (lexeme, position)
  | currentChar :: rest, position, lexeme =>
    if p currentChar then scanRun p rest (position + 1) (lexeme ++ [currentChar])
    else (lexeme, position)

/-- The loop condition of the identifier loop (line 56). -/
def isIdentChar (c : Char) : Bool := c.isAlphanum || c == '_'

/-- The keyword test of lines 61-70. -/
def classify (identifier : List Char) : Token :=
  if identifier = "if".toList then ⟨TokenType.IF, "if".toList⟩
  else if identifier = "else".toList then ⟨TokenType.ELSE, "else".toList⟩
  else if identifier = "while".toList then ⟨TokenType.WHILE, "while".toList⟩
  else if identifier = "function".toList then ⟨TokenType.FUNCTION, "function".toList⟩
  else ⟨TokenType.VARIABLE, identifier⟩

/-- The method `Lexer::getNextToken` (lines 40-103).  The outer `while` never
iterates twice: every path through its body returns or throws. -/
def Lexer.getNextToken (l : Lexer) : Result (Token × Lexer) :=
  match l.input.drop l.position with
  | [] => .ok (⟨TokenType.END, []⟩, l)
  | currentChar :: rest =>
    if currentChar.isDigit then
      let r := scanRun Char.isDigit (currentChar :: rest) l.position []
      .ok (⟨TokenType.NUMBER, r.1⟩, { l with position := r.2 })
    else if currentChar.isAlpha then
      let r := scanRun isIdentChar (currentChar :: rest) l.position []
      .ok (classify r.1, { l with position := r.2 })
    else if currentChar = '+' then
      .ok (⟨TokenType.PLUS, ['+']⟩, { l with position := l.position + 1 })
    else if currentChar = '-' then
      .ok (⟨TokenType.MINUS, ['-']⟩, { l with position := l.position + 1 })
    else if currentChar = '*' then
      .ok (⟨TokenType.MULTIPLY, ['*']⟩, { l with position := l.position + 1 })
    else if currentChar = '/' then
      .ok (⟨TokenType.DIVIDE, ['/']⟩, { l with position := l.position + 1 })
    else if currentChar = '(' then
      .ok (⟨TokenType.LPAREN, ['(']⟩, { l with position := l.position + 1 })
    else if currentChar = ')' then
      .ok (⟨TokenType.RPAREN, [')']⟩, { l with position := l.position + 1 })
    else if currentChar = '=' then
      .ok (⟨TokenType.ASSIGN, ['=']⟩, { l with position := l.position + 1 })
    else if currentChar = ',' then
      .ok (⟨TokenType.CALL, [',']⟩, { l with position := l.position + 1 })
    else .error Error.InvalidCharacter

/-- The variable store `std::unordered_map<std::string, int>`, as an
association list with unique keys. -/
abbrev Env := List (List Char × Int)

/-- The lookup `variables.find(name)`. -/
def Env.find : Env → List Char → Option Int
  | [], _ => none
  | (m, w) :: rest, name => if m = name then some w else Env.find rest name

/-- The upsert `variables[name] = value`. -/
def Env.set : Env → List Char → Int → Env
  | [], name, value => [(name, value)]
  | (m, w) :: rest, name, value =>
    if m = name then (name, value) :: rest else (m, w) :: Env.set rest name value

/-- The member data of `Parser` (lines 108-109). -/
structure Parser where
  lexer : Lexer
  currentToken : Token
  deriving DecidableEq, Repr

/-- The method `Parser::eat` (lines 111-116). -/
def Parser.eat (p : Parser) (expectedType : TokenType) : Result Parser :=
  if p.currentToken.type = expectedType then
    match p.lexer.getNextToken with
    | .ok (t, l) => .ok { lexer := l, currentToken := t }
    | .error e => .error e
    | .outOfFuel => .outOfFuel
  else .error Error.UnexpectedToken

/-- Least value of a 32-bit `int`. -/
def INT_MIN : Int := -2147483648

/-- Greatest value of a 32-bit `int`. -/
def INT_MAX : Int := 2147483647

/-- An arithmetic result is defined when it fits in an `int`. -/
def checkInt (v : Int) : Result Int :=
  if INT_MIN ≤ v ∧ v ≤ INT_MAX then .ok v else .error Error.UndefinedBehaviour

/-- The compound assignment `result /= divisor` of line 149: no test precedes
the division; C++ leaves a zero divisor (and an unrepresentable quotient)
undefined, otherwise the quotient is truncated toward zero. -/
def divInt (result divisor : Int) : Result Int :=
  if divisor = 0 then .error Error.UndefinedBehaviour
  else checkInt (Int.tdiv result divisor)

/-- Value of a run of decimal digits, most significant first. -/
def digitsValue (ds : List Char) : Nat :=
  ds.foldl (fun acc c => acc * 10 + (c.toNat - 48)) 0

/-- The call `std::stoi(currentToken.value)` of line 120: the leading digits
are converted; `std::invalid_argument` when there is none,
`std::out_of_range` when the value does not fit in an `int`.  (A NUMBER token
made by the scanner is a non-empty run of digits, so the sign and white-space
handling of `std::stoi` is never exercised.) -/
def stoi (s : List Char) : Result Int :=
  let ds := s.takeWhile Char.isDigit
  if ds = [] then .error Error.InvalidArgument
  else if (digitsValue ds : Int) ≤ INT_MAX then .ok (digitsValue ds : Int)
  else .error Error.OutOfRange

mutual
/-- The method `Parser::factor` (lines 118-139). -/
def Parser.factor : Nat → Env → Parser → Result (Int × Parser)
  | 0, _, _ => .outOfFuel
  | fuel + 1, vars, p =>
    if p.currentToken.type = TokenType.NUMBER then
      (stoi p.currentToken.value).bind fun value =>
      (p.eat TokenType.NUMBER).bind fun p =>
      .ok (value, p)
    else if p.currentToken.type = TokenType.VARIABLE then
      (p.eat TokenType.VARIABLE).bind fun p1 =>
      match vars.find p.currentToken.value with
      | some value => .ok (value, p1)
      | none => .error Error.UndefinedVariable
    else if p.currentToken.type = TokenType.LPAREN then
      (p.eat TokenType.LPAREN).bind fun p =>
      (Parser.expr fuel vars p).bind fun r =>
      (r.2.eat TokenType.RPAREN).bind fun p =>
      .ok (r.1, p)
    else .error Error.UnexpectedToken
/-- The loop of `Parser::term` (lines 143-151), entered with the running
value `result`. -/
def Parser.termLoop : Nat → Env → Int → Parser → Result (Int × Parser)
  | 0, _, _, _ => .outOfFuel
  | fuel + 1, vars, result, p =>
    if p.currentToken.type = TokenType.MULTIPLY then
      (p.eat TokenType.MULTIPLY).bind fun p =>
      (Parser.factor fuel vars p).bind fun r =>
      (checkInt (result * r.1)).bind fun result =>
      Parser.termLoop fuel vars result r.2
    else if p.currentToken.type = TokenType.DIVIDE then
      (p.eat TokenType.DIVIDE).bind fun p =>
      (Parser.factor fuel vars p).bind fun r =>
      (divInt result r.1).bind fun result =>
      Parser.termLoop fuel vars result r.2
    else .ok (result, p)
/-- The method `Parser::term` (lines 141-153). -/
def Parser.term : Nat → Env → Parser → Result (Int × Parser)
  | 0, _, _ => .outOfFuel
  | fuel + 1, vars, p =>
    (Parser.factor fuel vars p).bind fun r =>
    Parser.termLoop fuel vars r.1 r.2
/-- The loop of `Parser::expr` (lines 157-165), entered with the running
value `result`. -/
def Parser.exprLoop : Nat → Env → Int → Parser → Result (Int × Parser)
  | 0, _, _, _ => .outOfFuel
  | fuel + 1, vars, result, p =>
    if p.currentToken.type = TokenType.PLUS then
      (p.eat TokenType.PLUS).bind fun p =>
      (Parser.term fuel vars p).bind fun r =>
      (checkInt (result + r.1)).bind fun result =>
      Parser.exprLoop fuel vars result r.2
    else if p.currentToken.type = TokenType.MINUS then
      (p.eat TokenType.MINUS).bind fun p =>
      (Parser.term fuel vars p).bind fun r =>
      (checkInt (result - r.1)).bind fun result =>
      Parser.exprLoop fuel vars result r.2
    else .ok (result, p)
/-- The method `Parser::expr` (lines 155-167). -/
def Parser.expr : Nat → Env → Parser → Result (Int × Parser)
  | 0, _, _ => .outOfFuel
  | fuel + 1, vars, p =>
    (Parser.term fuel vars p).bind fun r =>
    Parser.exprLoop fuel vars r.1 r.2
end

/-- The skipping loops of lines 176-177 and 179-180:
`while (type != ELSE && type != END) eat(type)`. -/
def Parser.skipToElseOrEnd : Nat → Parser → Result Parser
  | 0, _ => .outOfFuel
  | fuel + 1, p =>
    if p.currentToken.type ≠ TokenType.ELSE ∧ p.currentToken.type ≠ TokenType.END then
      (p.eat p.currentToken.type).bind fun p => Parser.skipToElseOrEnd fuel p
    else .ok p

/-- The skipping loops of lines 183-184 and 193-194:
`while (type != END) eat(type)`. -/
def Parser.skipToEnd : Nat → Parser → Result Parser
  | 0, _ => .outOfFuel
  | fuel + 1, p =>
    if p.currentToken.type ≠ TokenType.END then
      (p.eat p.currentToken.type).bind fun p => Parser.skipToEnd fuel p
    else .ok p

/-- The loop `while (condition != 0)` of the while branch (lines 192-199). -/
def Parser.whileLoop : Nat → Env → Int → Parser → Result Parser
  | 0, _, _, _ => .outOfFuel
  | fuel + 1, vars, condition, p =>
    if condition ≠ 0 then
      (Parser.skipToEnd fuel p).bind fun p =>
      (p.eat TokenType.WHILE).bind fun p =>
      (p.eat TokenType.LPAREN).bind fun p =>
      (Parser.expr fuel vars p).bind fun r =>
      (r.2.eat TokenType.RPAREN).bind fun p =>
      Parser.whileLoop fuel vars r.1 p
    else .ok p

/-- The parameter loop of the function branch (lines 206-212); the collected
vector `params` is never read, so it is not kept. -/
def Parser.paramLoop : Nat → Parser → Result Parser
  | 0, _ => .outOfFuel
  | fuel + 1, p =>
    if p.currentToken.type ≠ TokenType.RPAREN then
      (p.eat TokenType.VARIABLE).bind fun p =>
      if p.currentToken.type = TokenType.RPAREN then .ok p
      else (p.eat TokenType.CALL).bind fun p => Parser.paramLoop fuel p
    else .ok p

/-- The method `Parser::statement` (lines 169-226); the store is passed by
reference in the C++ code and returned here. -/
def Parser.statement (fuel : Nat) (vars : Env) (p : Parser) : Result (Env × Parser) :=
  if p.currentToken.type = TokenType.IF then
    (p.eat TokenType.IF).bind fun p =>
    (p.eat TokenType.LPAREN).bind fun p =>
    (Parser.expr fuel vars p).bind fun r =>
    (r.2.eat TokenType.RPAREN).bind fun p =>
    if r.1 ≠ 0 then
      (Parser.skipToElseOrEnd fuel p).bind fun p => .ok (vars, p)
    else
      (Parser.skipToElseOrEnd fuel p).bind fun p =>
      if p.currentToken.type = TokenType.ELSE then
        (p.eat TokenType.ELSE).bind fun p =>
        (Parser.skipToEnd fuel p).bind fun p => .ok (vars, p)
      else .ok (vars, p)
  else if p.currentToken.type = TokenType.WHILE then
    (p.eat TokenType.WHILE).bind fun p =>
    (p.eat TokenType.LPAREN).bind fun p =>
    (Parser.expr fuel vars p).bind fun r =>
    (r.2.eat TokenType.RPAREN).bind fun p =>
    (Parser.whileLoop fuel vars r.1 p).bind fun p => .ok (vars, p)
  else if p.currentToken.type = TokenType.FUNCTION then
    (p.eat TokenType.FUNCTION).bind fun p1 =>
    (p1.eat TokenType.VARIABLE).bind fun p =>
    (p.eat TokenType.LPAREN).bind fun p =>
    (Parser.paramLoop fuel p).bind fun p =>
    (p.eat TokenType.RPAREN).bind fun p =>
    (Parser.expr fuel vars p).bind fun r =>
    .ok (vars.set p1.currentToken.value r.1, r.2)
  else if p.currentToken.type = TokenType.VARIABLE then
    (p.eat TokenType.VARIABLE).bind fun p1 =>
    (p1.eat TokenType.ASSIGN).bind fun p1 =>
    (Parser.expr fuel vars p1).bind fun r =>
    .ok (vars.set p.currentToken.value r.1, r.2)
  else
    (Parser.expr fuel vars p).bind fun r => .ok (vars, r.2)

/-- The constructor `Parser(Lexer lexer) : lexer(lexer),
currentToken(lexer.getNextToken())` (line 229).  Inside the initialiser list
the name `lexer` denotes the constructor parameter, which hides the member:
the member `lexer` is copied from the parameter first (members are
initialised in declaration order, line 108 before line 109), and then the
first token is scanned with the parameter, a separate object.  The member
keeps the cursor of the argument, so the first `eat` scans that token again. -/
def Parser.new (lexer : Lexer) : Result Parser :=
  match lexer.getNextToken with
  | .ok (t, _) => .ok { lexer := lexer, currentToken := t }
  | .error e => .error e
  | .outOfFuel => .outOfFuel

/-- The method `Parser::parse` (lines 231-235). -/
def Parser.parse : Nat → Env → Parser → Result Env
  | 0, _, _ => .outOfFuel
  | fuel + 1, vars, p =>
    if p.currentToken.type ≠ TokenType.END then
      (Parser.statement fuel vars p).bind fun r => Parser.parse fuel r.1 r.2
    else .ok vars

/-- A run of the interpreter as `main` performs it (lines 250-254): a `Lexer`
on the program text with the cursor at 0, the `Parser` constructed from it,
then `Parser::parse` on the store. -/
def run (fuel : Nat) (input : List Char) (vars : Env) : Result Env :=
  (Parser.new { input := input, position := 0 }).bind fun p => Parser.parse fuel vars p

/-- The evaluator state whose lookahead is the token that starts at the cursor
of `l` and whose scanner stands just past that token: the state every `eat`
leaves behind (line 113). -/
def Parser.at (l : Lexer) : Result Parser :=
  match l.getNextToken with
  | .ok (t, l1) => .ok { lexer := l1, currentToken := t }
  | .error e => .error e
  | .outOfFuel => .outOfFuel

/-- The outcome of `Parser::parse` on a program text when the evaluator starts
in the state `Parser.at` of cursor 0, that is with the first token as
lookahead and the scanner just past it. -/
def parseFrom (fuel : Nat) (input : List Char) (vars : Env) : Result Env :=
  (Parser.at { input := input, position := 0 }).bind fun p => Parser.parse fuel vars p

/-! ## Reference semantics of arithmetic expressions

The grammar of the specification, `expr := term (("+"|"-") term)*`,
`term := factor (("*"|"/") factor)*`, `factor := NUMBER | IDENT | "(" expr ")"`,
as syntax trees in which operators of one level nest to the left. -/

mutual
/-- An `expr` of the grammar. -/
inductive Expr
  | term : Term → Expr
  | add : Expr → Term → Expr
  | sub : Expr → Term → Expr
/-- A `term` of the grammar. -/
inductive Term
  | factor : Factor → Term
  | mul : Term → Factor → Term
  | div : Term → Factor → Term
/-- A `factor` of the grammar: a literal (its digits), a name, or a
parenthesised expression. -/
inductive Factor
  | num : List Char → Factor
  | var : List Char → Factor
  | paren : Expr → Factor
end

mutual
/-- The program text of an expression, written without white space. -/
def Expr.text : Expr → List Char
  | .term t => t.text
  | .add e t => e.text ++ '+' :: t.text
  | .sub e t => e.text ++ '-' :: t.text
/-- The program text of a term. -/
def Term.text : Term → List Char
  | .factor f => f.text
  | .mul t f => t.text ++ '*' :: f.text
  | .div t f => t.text ++ '/' :: f.text
/-- The program text of a factor. -/
def Factor.text : Factor → List Char
  | .num ds => ds
  | .var x => x
  | .paren e => '(' :: (e.text ++ [')'])
end

/-- A literal of the grammar: a non-empty run of decimal digits. -/
def isLiteral (ds : List Char) : Bool := !ds.isEmpty && ds.all Char.isDigit

/-- A name of the grammar: a letter, then letters, digits and underscores,
other than a reserved spelling. -/
def isIdentifier (x : List Char) : Bool :=
  match x with
  | [] => false
  | c :: cs =>
    c.isAlpha && cs.all isIdentChar &&
      !(x = "if".toList || x = "else".toList || x = "while".toList || x = "function".toList)

mutual
/-- Every literal and every name of the expression is one of the grammar. -/
def Expr.wellFormed : Expr → Bool
  | .term t => t.wellFormed
  | .add e t => e.wellFormed && t.wellFormed
  | .sub e t => e.wellFormed && t.wellFormed
/-- Every literal and every name of the term is one of the grammar. -/
def Term.wellFormed : Term → Bool
  | .factor f => f.wellFormed
  | .mul t f => t.wellFormed && f.wellFormed
  | .div t f => t.wellFormed && f.wellFormed
/-- Every literal and every name of the factor is one of the grammar. -/
def Factor.wellFormed : Factor → Bool
  | .num ds => isLiteral ds
  | .var x => isIdentifier x
  | .paren e => e.wellFormed
end

/-- A value of the reference semantics is kept when it lies in the signed
32-bit range. -/
def inRange (v : Int) : Option Int :=
  if -2147483648 ≤ v ∧ v ≤ 2147483647 then some v else none

mutual
/-- Reference value of an expression: `+` and `-` associate to the left.  The
value is `none` when a name is unbound, a divisor is zero, or a literal or an
intermediate value leaves the signed 32-bit range. -/
def Expr.value (vars : Env) : Expr → Option Int
  | .term t => t.value vars
  | .add e t => (e.value vars).bind fun a => (t.value vars).bind fun b => inRange (a + b)
  | .sub e t => (e.value vars).bind fun a => (t.value vars).bind fun b => inRange (a - b)
/-- Reference value of a term: `*` and `/` associate to the left and `/` is
the integer quotient rounded toward zero. -/
def Term.value (vars : Env) : Term → Option Int
  | .factor f => f.value vars
  | .mul t f => (t.value vars).bind fun a => (f.value vars).bind fun b => inRange (a * b)
  | .div t f => (t.value vars).bind fun a => (f.value vars).bind fun b =>
      if b = 0 then none else inRange (Int.tdiv a b)
/-- Reference value of a factor. -/
def Factor.value (vars : Env) : Factor → Option Int
  | .num ds => inRange (digitsValue ds)
  | .var x => vars.find x
  | .paren e => e.value vars
end

/-- The text after an expression lets the expression end there: it is empty
or starts with one of `( ) = ,`. -/
def stops (post : List Char) : Bool :=
  match post with
  | [] => true
  | c :: _ => c = '(' || c = ')' || c = '=' || c = ','

/-- The text after a factor lets its last token end there: it is empty or
starts with a punctuation character. -/
def delimits (post : List Char) : Bool :=
  match post with
  | [] => true
  | c :: _ => c = '+' || c = '-' || c = '*' || c = '/' || c = '(' || c = ')' || c = '=' || c = ','

/-- The text after a term lets the term end there: it is empty or starts with
one of `+ - ( ) = ,`. -/
def endsTerm (post : List Char) : Bool :=
  match post with
  | [] => true
  | c :: _ => c = '+' || c = '-' || c = '(' || c = ')' || c = '=' || c = ','

/-- The evaluator state on the text `pre ++ s` whose lookahead is the first
token of `s`. -/
def stateAt (pre s : List Char) : Result Parser :=
  Parser.at { input := pre ++ s, position := pre.length }

/-- The punctuation characters of the `switch` (lines 73-97) with their kinds. -/
def punctuation : List (Char × TokenType) :=
  [('+', TokenType.PLUS), ('-', TokenType.MINUS), ('*', TokenType.MULTIPLY),
   ('/', TokenType.DIVIDE), ('(', TokenType.LPAREN), (')', TokenType.RPAREN),
   ('=', TokenType.ASSIGN), (',', TokenType.CALL)]

/-- The expression `(a+3)*2-8/3` as a syntax tree. -/
def sampleExpr : Expr :=
  Expr.sub
    (Expr.term (Term.mul
      (Term.factor (Factor.paren
        (Expr.add (Expr.term (Term.factor (Factor.var ['a']))) (Term.factor (Factor.num ['3'])))))
      (Factor.num ['2'])))
    (Term.div (Term.factor (Factor.num ['8'])) (Factor.num ['3']))

/-- The evaluator state on the text `x=(a+3)*2-8/3` once `x` and `=` are
consumed: the lookahead is the opening parenthesis at index 2. -/
def sampleState : Parser :=
  { lexer := { input := "x=(a+3)*2-8/3".toList, position := 3 },
    currentToken := ⟨TokenType.LPAREN, ['(']⟩ }

/-- A lexeme of the identifier branch: a letter, then letters, digits and
underscores. -/
def isWord (x : List Char) : Bool :=
  match x with
  | [] => false
  | c :: cs => c.isAlpha && cs.all isIdentChar

/-- The guard `1` as a syntax tree. -/
def guardOne : Expr := Expr.term (Term.factor (Factor.num ['1']))

/-- The expression `(0-7)/2` as a term over a factor. -/
def sampleDividend : Term :=
  Term.factor (Factor.paren
    (Expr.sub (Expr.term (Term.factor (Factor.num ['0']))) (Term.factor (Factor.num ['7']))))

/-- Repeated calls: `getNextToken` called `n` times in a row, with the tokens
returned and the scanner state after the last call. -/
def Lexer.getTokens : Nat → Lexer → Result (List Token × Lexer)
  | 0, l => .ok ([], l)
  | n + 1, l =>
    l.getNextToken.bind fun r =>
    (Lexer.getTokens n r.2).bind fun rs => .ok (r.1 :: rs.1, rs.2)

/-- Repeated calls of `getNextToken` until the END token is returned: the
tokens returned, the END token last. -/
def Lexer.scanAll : Nat → Lexer → Result (List Token)
  | 0, _ => .outOfFuel
  | fuel + 1, l =>
    l.getNextToken.bind fun r =>
    if r.1.type = TokenType.END then .ok [r.1]
    else (Lexer.scanAll fuel r.2).bind fun ts => .ok (r.1 :: ts)
mutual
/-- The name `n` occurs in the expression. -/
def Expr.mentions (n : List Char) : Expr → Bool
  | .term t => t.mentions n
  | .add e t => e.mentions n || t.mentions n
  | .sub e t => e.mentions n || t.mentions n
/-- The name `n` occurs in the term. -/
def Term.mentions (n : List Char) : Term → Bool
  | .factor f => f.mentions n
  | .mul t f => t.mentions n || f.mentions n
  | .div t f => t.mentions n || f.mentions n
/-- The name `n` occurs in the factor. -/
def Factor.mentions (n : List Char) : Factor → Bool
  | .num _ => false
  | .var x => x = n
  | .paren e => e.mentions n
end

/-- The characters the scanner accepts: a digit, a letter, an underscore or one
of `+ - * / ( ) = ,`. -/
def validChar (c : Char) : Bool :=
  c.isDigit || c.isAlpha || c == '_' || c == '+' || c == '-' || c == '*' || c == '/' ||
    c == '(' || c == ')' || c == '=' || c == ','

/-- What is left to consume: the characters from the cursor on, and the
lookahead unless it is the END token. -/
def Parser.measure (p : Parser) : Nat :=
  (p.lexer.input.length - p.lexer.position) +
    (if p.currentToken.type = TokenType.END then 0 else 1)

/-- The evaluator states that scanning produces: a NUMBER lookahead is a
non-empty run of digits, every character before the cursor is one the scanner
accepts, and an END lookahead means the cursor is at the end of the buffer. -/
def Parser.inv (p : Parser) : Prop :=
  (p.currentToken.type = TokenType.NUMBER → isLiteral p.currentToken.value = true) ∧
  (∀ c ∈ p.lexer.input.take p.lexer.position, validChar c = true) ∧
  (p.currentToken.type = TokenType.END → p.lexer.input.length ≤ p.lexer.position)

/-- The state `q` follows `p` with something consumed. -/
abbrev Parser.lt (q p : Parser) : Prop :=
  q.inv ∧ q.measure < p.measure ∧ q.lexer.input = p.lexer.input

/-- The state `q` follows `p`, with or without anything consumed. -/
abbrev Parser.le (q p : Parser) : Prop :=
  q.inv ∧ q.measure ≤ p.measure ∧ q.lexer.input = p.lexer.input

/-- The outcome is there (the fuel sufficed), is not the `std::invalid_argument`
of `std::stoi`, and a value satisfies `R`. -/
def Result.holds {α : Type} (R : α → Prop) (r : Result α) : Prop :=
  r ≠ .outOfFuel ∧ r ≠ .error Error.InvalidArgument ∧ ∀ a, r = .ok a → R a

/-- Approximation order on outcomes: exhausted fuel lies below every outcome. -/
def Result.le {α : Type} (r s : Result α) : Prop := r = .outOfFuel ∨ r = s

/-! ## The scanner -/

theorem scanRun_eq (p : Char → Bool) (s : List Char) (position : Nat) (lexeme : List Char) :
    scanRun p s position lexeme
      = (lexeme ++ s.takeWhile p, position + (s.takeWhile p).length) := by
  induction s generalizing position lexeme with
  | nil => simp [scanRun]
  | cons c cs ih =>
    by_cases h : p c = true
    · simp [scanRun, h, ih, List.takeWhile_cons]; omega
    · simp [scanRun, h, List.takeWhile_cons]

theorem takeWhile_run (p : Char → Bool) (s post : List Char)
    (hs : s.all p = true) (hpost : ∀ c ∈ post.head?, p c = false) :
    (s ++ post).takeWhile p = s := by
  induction s with
  | nil =>
    cases post with
    | nil => simp
    | cons c cs => simp [List.takeWhile_cons, hpost c (by simp)]
  | cons c cs ih =>
    simp only [List.all_cons, Bool.and_eq_true] at hs
    simp [List.takeWhile_cons, hs.1, ih hs.2]

theorem getNextToken_end (l : Lexer) (h : l.input.drop l.position = []) :
    l.getNextToken = .ok (⟨TokenType.END, []⟩, l) := by
  simp [Lexer.getNextToken, h]

theorem getNextToken_punct (l : Lexer) (c : Char) (ty : TokenType) (rest : List Char)
    (hc : (c, ty) ∈ punctuation) (h : l.input.drop l.position = c :: rest) :
    l.getNextToken = .ok (⟨ty, [c]⟩, { l with position := l.position + 1 }) := by
  simp only [punctuation, List.mem_cons, Prod.mk.injEq, List.mem_singleton,
    List.not_mem_nil, or_false] at hc
  rcases hc with e | e | e | e | e | e | e | e
  all_goals
    obtain ⟨hch, hty⟩ := e
    subst hch hty
    simp only [Lexer.getNextToken, h]
    rfl

theorem getNextToken_number (l : Lexer) (ds post : List Char)
    (hds : isLiteral ds = true) (hpost : ∀ c ∈ post.head?, c.isDigit = false)
    (h : l.input.drop l.position = ds ++ post) :
    l.getNextToken
      = .ok (⟨TokenType.NUMBER, ds⟩, { l with position := l.position + ds.length }) := by
  cases ds with
  | nil => simp [isLiteral] at hds
  | cons d ds =>
    simp only [isLiteral, List.isEmpty_cons, Bool.not_false, Bool.true_and] at hds
    have hd : d.isDigit = true := by
      simp only [List.all_cons, Bool.and_eq_true] at hds
      exact hds.1
    have ht := takeWhile_run Char.isDigit (d :: ds) post hds hpost
    rw [List.cons_append] at h ht
    simp only [Lexer.getNextToken, h, hd, if_true, scanRun_eq, ht, List.nil_append]

theorem isAlpha_not_isDigit (c : Char) (hc : c.isAlpha = true) : c.isDigit = false := by
  cases hdig : c.isDigit with
  | false => rfl
  | true =>
    simp only [Char.isAlpha, Char.isUpper, Char.isLower, Char.isDigit, Bool.or_eq_true,
      Bool.and_eq_true, decide_eq_true_eq] at hc hdig
    have h1 := hdig.1
    have h2 := hdig.2
    simp only [ge_iff_le, UInt32.le_def, Fin.le_def] at h1 h2 hc
    have e1 : (UInt32.toBitVec 48).toNat = 48 := rfl
    have e2 : (UInt32.toBitVec 57).toNat = 57 := rfl
    have e3 : (UInt32.toBitVec 65).toNat = 65 := rfl
    have e4 : (UInt32.toBitVec 90).toNat = 90 := rfl
    have e5 : (UInt32.toBitVec 97).toNat = 97 := rfl
    have e6 : (UInt32.toBitVec 122).toNat = 122 := rfl
    bv_omega

theorem isIdentifier_classify (x : List Char) (hx : isIdentifier x = true) :
    classify x = ⟨TokenType.VARIABLE, x⟩ := by
  cases x with
  | nil => simp [isIdentifier] at hx
  | cons c cs =>
    simp only [isIdentifier, Bool.and_eq_true, Bool.not_eq_true', Bool.or_eq_false_iff,
      decide_eq_false_iff_not] at hx
    obtain ⟨_, ⟨⟨h1, h2⟩, h3⟩, h4⟩ := hx
    unfold classify
    rw [if_neg h1, if_neg h2, if_neg h3, if_neg h4]

theorem getNextToken_word (l : Lexer) (x post : List Char)
    (hx : isWord x = true) (hpost : ∀ c ∈ post.head?, isIdentChar c = false)
    (h : l.input.drop l.position = x ++ post) :
    l.getNextToken = .ok (classify x, { l with position := l.position + x.length }) := by
  cases x with
  | nil => simp [isWord] at hx
  | cons c cs =>
    simp only [isWord, Bool.and_eq_true] at hx
    obtain ⟨hc, hcs⟩ := hx
    have hnd : c.isDigit = false := isAlpha_not_isDigit c hc
    have hall : (c :: cs).all isIdentChar = true := by
      simp only [List.all_cons, Bool.and_eq_true]
      refine ⟨?_, hcs⟩
      simp [isIdentChar, Char.isAlphanum, hc]
    have ht := takeWhile_run isIdentChar (c :: cs) post hall hpost
    rw [List.cons_append] at h ht
    simp only [Lexer.getNextToken, h, hnd, hc, if_true, scanRun_eq, ht, List.nil_append]
    rfl

theorem isIdentifier_isWord (x : List Char) (hx : isIdentifier x = true) : isWord x = true := by
  cases x with
  | nil => simp [isIdentifier] at hx
  | cons c cs =>
    simp only [isIdentifier, Bool.and_eq_true] at hx
    simp only [isWord, Bool.and_eq_true]
    exact hx.1

theorem getNextToken_ident (l : Lexer) (x post : List Char)
    (hx : isIdentifier x = true) (hpost : ∀ c ∈ post.head?, isIdentChar c = false)
    (h : l.input.drop l.position = x ++ post) :
    l.getNextToken
      = .ok (⟨TokenType.VARIABLE, x⟩, { l with position := l.position + x.length }) := by
  rw [getNextToken_word l x post (isIdentifier_isWord x hx) hpost h,
    isIdentifier_classify x hx]

theorem getNextToken_ok_or_invalid (l : Lexer) :
    (∃ t l1, l.getNextToken = .ok (t, l1)) ∨ l.getNextToken = .error Error.InvalidCharacter := by
  have key : ∀ r : Result (Token × Lexer), r = l.getNextToken →
      (∃ t l1, r = .ok (t, l1)) ∨ r = .error Error.InvalidCharacter := by
    intro r hr
    unfold Lexer.getNextToken at hr
    cases hd : l.input.drop l.position with
    | nil =>
      rw [hd] at hr
      exact Or.inl ⟨_, _, hr⟩
    | cons c rest =>
      rw [hd] at hr
      dsimp only at hr
      by_cases h1 : c.isDigit = true
      · rw [if_pos h1] at hr; exact Or.inl ⟨_, _, hr⟩
      rw [if_neg h1] at hr
      by_cases h2 : c.isAlpha = true
      · rw [if_pos h2] at hr; exact Or.inl ⟨_, _, hr⟩
      rw [if_neg h2] at hr
      by_cases h3 : c = '+'
      · rw [if_pos h3] at hr; exact Or.inl ⟨_, _, hr⟩
      rw [if_neg h3] at hr
      by_cases h4 : c = '-'
      · rw [if_pos h4] at hr; exact Or.inl ⟨_, _, hr⟩
      rw [if_neg h4] at hr
      by_cases h5 : c = '*'
      · rw [if_pos h5] at hr; exact Or.inl ⟨_, _, hr⟩
      rw [if_neg h5] at hr
      by_cases h6 : c = '/'
      · rw [if_pos h6] at hr; exact Or.inl ⟨_, _, hr⟩
      rw [if_neg h6] at hr
      by_cases h7 : c = '('
      · rw [if_pos h7] at hr; exact Or.inl ⟨_, _, hr⟩
      rw [if_neg h7] at hr
      by_cases h8 : c = ')'
      · rw [if_pos h8] at hr; exact Or.inl ⟨_, _, hr⟩
      rw [if_neg h8] at hr
      by_cases h9 : c = '='
      · rw [if_pos h9] at hr; exact Or.inl ⟨_, _, hr⟩
      rw [if_neg h9] at hr
      by_cases h10 : c = ','
      · rw [if_pos h10] at hr; exact Or.inl ⟨_, _, hr⟩
      rw [if_neg h10] at hr
      exact Or.inr hr
  exact key _ rfl

/-! ## Evaluator states -/

theorem Parser.eat_eq_at (p : Parser) (ty : TokenType) (h : p.currentToken.type = ty) :
    p.eat ty = Parser.at p.lexer := by
  simp only [Parser.eat, Parser.at, h, if_true]

theorem stateAt_of_token (pre tok rest : List Char) (t : Token)
    (h : Lexer.getNextToken { input := pre ++ (tok ++ rest), position := pre.length }
      = .ok (t, { input := pre ++ (tok ++ rest), position := pre.length + tok.length })) :
    ∃ p, stateAt pre (tok ++ rest) = .ok p ∧ p.currentToken = t ∧
      p.eat t.type = stateAt (pre ++ tok) rest := by
  refine ⟨{ lexer := { input := pre ++ (tok ++ rest), position := pre.length + tok.length },
            currentToken := t }, ?_, rfl, ?_⟩
  · simp only [stateAt, Parser.at, h]
  · rw [Parser.eat_eq_at _ _ rfl]
    simp only [stateAt, List.append_assoc, List.length_append]

theorem stateAt_nil (pre : List Char) :
    ∃ p, stateAt pre [] = .ok p ∧ p.currentToken = ⟨TokenType.END, []⟩ := by
  refine ⟨{ lexer := { input := pre ++ [], position := pre.length },
            currentToken := ⟨TokenType.END, []⟩ }, ?_, rfl⟩
  simp only [stateAt, Parser.at]
  rw [getNextToken_end _ (by simp)]

theorem stateAt_punct (pre rest : List Char) (c : Char) (ty : TokenType)
    (hc : (c, ty) ∈ punctuation) :
    ∃ p, stateAt pre (c :: rest) = .ok p ∧ p.currentToken = ⟨ty, [c]⟩ ∧
      p.eat ty = stateAt (pre ++ [c]) rest := by
  have h := getNextToken_punct { input := pre ++ ([c] ++ rest), position := pre.length }
    c ty rest hc (by simp)
  exact stateAt_of_token pre [c] rest ⟨ty, [c]⟩ h

theorem stateAt_number (pre ds post : List Char)
    (hds : isLiteral ds = true) (hpost : ∀ c ∈ post.head?, c.isDigit = false) :
    ∃ p, stateAt pre (ds ++ post) = .ok p ∧ p.currentToken = ⟨TokenType.NUMBER, ds⟩ ∧
      p.eat TokenType.NUMBER = stateAt (pre ++ ds) post := by
  have h := getNextToken_number { input := pre ++ (ds ++ post), position := pre.length }
    ds post hds hpost (by simp)
  exact stateAt_of_token pre ds post ⟨TokenType.NUMBER, ds⟩ h

theorem stateAt_ident (pre x post : List Char)
    (hx : isIdentifier x = true) (hpost : ∀ c ∈ post.head?, isIdentChar c = false) :
    ∃ p, stateAt pre (x ++ post) = .ok p ∧ p.currentToken = ⟨TokenType.VARIABLE, x⟩ ∧
      p.eat TokenType.VARIABLE = stateAt (pre ++ x) post := by
  have h := getNextToken_ident { input := pre ++ (x ++ post), position := pre.length }
    x post hx hpost (by simp)
  exact stateAt_of_token pre x post ⟨TokenType.VARIABLE, x⟩ h

theorem stateAt_word (pre x post : List Char)
    (hx : isWord x = true) (hpost : ∀ c ∈ post.head?, isIdentChar c = false) :
    ∃ p, stateAt pre (x ++ post) = .ok p ∧ p.currentToken = classify x ∧
      p.eat (classify x).type = stateAt (pre ++ x) post := by
  have h := getNextToken_word { input := pre ++ (x ++ post), position := pre.length }
    x post hx hpost (by simp)
  exact stateAt_of_token pre x post (classify x) h

theorem stateAt_ok_or_invalid (pre s : List Char) :
    (∃ p, stateAt pre s = .ok p) ∨ stateAt pre s = .error Error.InvalidCharacter := by
  unfold stateAt Parser.at
  rcases getNextToken_ok_or_invalid { input := pre ++ s, position := pre.length }
    with ⟨t, l1, h⟩ | h
  · left
    rw [h]
    exact ⟨_, rfl⟩
  · right
    rw [h]

theorem delimits_head (post : List Char) (h : delimits post = true) :
    ∀ c ∈ post.head?, c.isDigit = false ∧ isIdentChar c = false := by
  intro c hc
  cases post with
  | nil => simp at hc
  | cons d rest =>
    simp only [List.head?_cons, Option.mem_def, Option.some.injEq] at hc
    subst hc
    simp only [delimits, Bool.or_eq_true, decide_eq_true_eq] at h
    rcases h with ((((((rfl | rfl) | rfl) | rfl) | rfl) | rfl) | rfl) | rfl <;> decide

theorem delimits_stateAt (pre post : List Char) (h : delimits post = true) :
    ∃ p, stateAt pre post = .ok p := by
  cases post with
  | nil =>
    obtain ⟨p, hp, _⟩ := stateAt_nil pre
    exact ⟨p, hp⟩
  | cons d rest =>
    simp only [delimits, Bool.or_eq_true, decide_eq_true_eq] at h
    rcases h with ((((((rfl | rfl) | rfl) | rfl) | rfl) | rfl) | rfl) | rfl
    · obtain ⟨p, hp, _⟩ := stateAt_punct pre rest '+' TokenType.PLUS (by decide)
      exact ⟨p, hp⟩
    · obtain ⟨p, hp, _⟩ := stateAt_punct pre rest '-' TokenType.MINUS (by decide)
      exact ⟨p, hp⟩
    · obtain ⟨p, hp, _⟩ := stateAt_punct pre rest '*' TokenType.MULTIPLY (by decide)
      exact ⟨p, hp⟩
    · obtain ⟨p, hp, _⟩ := stateAt_punct pre rest '/' TokenType.DIVIDE (by decide)
      exact ⟨p, hp⟩
    · obtain ⟨p, hp, _⟩ := stateAt_punct pre rest '(' TokenType.LPAREN (by decide)
      exact ⟨p, hp⟩
    · obtain ⟨p, hp, _⟩ := stateAt_punct pre rest ')' TokenType.RPAREN (by decide)
      exact ⟨p, hp⟩
    · obtain ⟨p, hp, _⟩ := stateAt_punct pre rest '=' TokenType.ASSIGN (by decide)
      exact ⟨p, hp⟩
    · obtain ⟨p, hp, _⟩ := stateAt_punct pre rest ',' TokenType.CALL (by decide)
      exact ⟨p, hp⟩

theorem stops_delimits (post : List Char) (h : stops post = true) : delimits post = true := by
  cases post with
  | nil => rfl
  | cons d rest =>
    simp only [stops, Bool.or_eq_true, decide_eq_true_eq] at h
    simp only [delimits, Bool.or_eq_true, decide_eq_true_eq]
    tauto

/-- After a text that lets an expression stop, the lookahead is none of the
four operators. -/
theorem stops_stateAt (pre post : List Char) (h : stops post = true) :
    ∃ p, stateAt pre post = .ok p ∧ p.currentToken.type ≠ TokenType.PLUS ∧
      p.currentToken.type ≠ TokenType.MINUS ∧ p.currentToken.type ≠ TokenType.MULTIPLY ∧
      p.currentToken.type ≠ TokenType.DIVIDE := by
  cases post with
  | nil =>
    obtain ⟨p, hp, ht⟩ := stateAt_nil pre
    exact ⟨p, hp, by simp [ht]⟩
  | cons d rest =>
    simp only [stops, Bool.or_eq_true, decide_eq_true_eq] at h
    rcases h with ((rfl | rfl) | rfl) | rfl
    · obtain ⟨p, hp, ht, _⟩ := stateAt_punct pre rest '(' TokenType.LPAREN (by decide)
      exact ⟨p, hp, by simp [ht]⟩
    · obtain ⟨p, hp, ht, _⟩ := stateAt_punct pre rest ')' TokenType.RPAREN (by decide)
      exact ⟨p, hp, by simp [ht]⟩
    · obtain ⟨p, hp, ht, _⟩ := stateAt_punct pre rest '=' TokenType.ASSIGN (by decide)
      exact ⟨p, hp, by simp [ht]⟩
    · obtain ⟨p, hp, ht, _⟩ := stateAt_punct pre rest ',' TokenType.CALL (by decide)
      exact ⟨p, hp, by simp [ht]⟩

/-! ## More fuel never changes an outcome -/

theorem Result.le_refl {α : Type} (r : Result α) : r.le r := Or.inr rfl

theorem Result.outOfFuel_le {α : Type} (r : Result α) : (Result.outOfFuel).le r := Or.inl rfl

theorem Result.bind_le {α β : Type} {x y : Result α} {f g : α → Result β}
    (h1 : x.le y) (h2 : ∀ a, (f a).le (g a)) : (x.bind f).le (y.bind g) := by
  rcases h1 with h | h
  · subst h; exact Or.inl rfl
  · subst h
    cases x with
    | ok a => exact h2 a
    | error e => exact Or.inr rfl
    | outOfFuel => exact Or.inl rfl

theorem Result.le_ok {α : Type} {r s : Result α} {a : α} (h : r.le s) (hr : r = .ok a) :
    s = .ok a := by
  rcases h with h | h
  · rw [h] at hr; cases hr
  · rw [← h]; exact hr

theorem Result.le_error {α : Type} {r s : Result α} {e : Error} (h : r.le s)
    (hr : r = .error e) : s = .error e := by
  rcases h with h | h
  · rw [h] at hr; cases hr
  · rw [← h]; exact hr

theorem exprFamily_mono (n : Nat) : ∀ m, n ≤ m → ∀ vars : Env,
    (∀ p, (Parser.factor n vars p).le (Parser.factor m vars p)) ∧
    (∀ r p, (Parser.termLoop n vars r p).le (Parser.termLoop m vars r p)) ∧
    (∀ p, (Parser.term n vars p).le (Parser.term m vars p)) ∧
    (∀ r p, (Parser.exprLoop n vars r p).le (Parser.exprLoop m vars r p)) ∧
    (∀ p, (Parser.expr n vars p).le (Parser.expr m vars p)) := by
  induction n with
  | zero =>
    intro m _ vars
    refine ⟨?_, ?_, ?_, ?_, ?_⟩ <;> intros <;> exact Or.inl rfl
  | succ n ih =>
    intro m hm vars
    obtain ⟨k, rfl⟩ : ∃ k, m = k + 1 := ⟨m - 1, by omega⟩
    obtain ⟨hf, htl, ht, hel, he⟩ := ih k (by omega) vars
    refine ⟨?_, ?_, ?_, ?_, ?_⟩
    · intro p
      simp only [Parser.factor]
      split_ifs
      · exact Result.le_refl _
      · exact Result.le_refl _
      · refine Result.bind_le (Result.le_refl _) fun p1 => ?_
        refine Result.bind_le (he _) fun r => ?_
        exact Result.le_refl _
      · exact Result.le_refl _
    · intro r p
      simp only [Parser.termLoop]
      split_ifs
      · refine Result.bind_le (Result.le_refl _) fun p1 => ?_
        refine Result.bind_le (hf _) fun r1 => ?_
        refine Result.bind_le (Result.le_refl _) fun r2 => ?_
        exact htl _ _
      · refine Result.bind_le (Result.le_refl _) fun p1 => ?_
        refine Result.bind_le (hf _) fun r1 => ?_
        refine Result.bind_le (Result.le_refl _) fun r2 => ?_
        exact htl _ _
      · exact Result.le_refl _
    · intro p
      simp only [Parser.term]
      exact Result.bind_le (hf _) fun r => htl _ _
    · intro r p
      simp only [Parser.exprLoop]
      split_ifs
      · refine Result.bind_le (Result.le_refl _) fun p1 => ?_
        refine Result.bind_le (ht _) fun r1 => ?_
        refine Result.bind_le (Result.le_refl _) fun r2 => ?_
        exact hel _ _
      · refine Result.bind_le (Result.le_refl _) fun p1 => ?_
        refine Result.bind_le (ht _) fun r1 => ?_
        refine Result.bind_le (Result.le_refl _) fun r2 => ?_
        exact hel _ _
      · exact Result.le_refl _
    · intro p
      simp only [Parser.expr]
      exact Result.bind_le (ht _) fun r => hel _ _

theorem factor_mono {n m : Nat} (h : n ≤ m) (vars : Env) (p : Parser) :
    (Parser.factor n vars p).le (Parser.factor m vars p) :=
  (exprFamily_mono n m h vars).1 p

theorem termLoop_mono {n m : Nat} (h : n ≤ m) (vars : Env) (r : Int) (p : Parser) :
    (Parser.termLoop n vars r p).le (Parser.termLoop m vars r p) :=
  (exprFamily_mono n m h vars).2.1 r p

theorem term_mono {n m : Nat} (h : n ≤ m) (vars : Env) (p : Parser) :
    (Parser.term n vars p).le (Parser.term m vars p) :=
  (exprFamily_mono n m h vars).2.2.1 p

theorem exprLoop_mono {n m : Nat} (h : n ≤ m) (vars : Env) (r : Int) (p : Parser) :
    (Parser.exprLoop n vars r p).le (Parser.exprLoop m vars r p) :=
  (exprFamily_mono n m h vars).2.2.2.1 r p

theorem expr_mono {n m : Nat} (h : n ≤ m) (vars : Env) (p : Parser) :
    (Parser.expr n vars p).le (Parser.expr m vars p) :=
  (exprFamily_mono n m h vars).2.2.2.2 p

theorem Result.le_eq {α : Type} {r s : Result α} (h : r.le s) (hr : r ≠ .outOfFuel) :
    s = r := by
  rcases h with h | h
  · exact absurd h hr
  · exact h.symm

/-! ## The expression evaluator computes the reference value -/

theorem endsTerm_delimits (post : List Char) (h : endsTerm post = true) :
    delimits post = true := by
  cases post with
  | nil => rfl
  | cons d rest =>
    simp only [endsTerm, Bool.or_eq_true, decide_eq_true_eq] at h
    simp only [delimits, Bool.or_eq_true, decide_eq_true_eq]
    tauto

theorem stops_endsTerm (post : List Char) (h : stops post = true) : endsTerm post = true := by
  cases post with
  | nil => rfl
  | cons d rest =>
    simp only [stops, Bool.or_eq_true, decide_eq_true_eq] at h
    simp only [endsTerm, Bool.or_eq_true, decide_eq_true_eq]
    tauto

theorem endsTerm_stateAt (pre post : List Char) (h : endsTerm post = true) :
    ∃ p, stateAt pre post = .ok p ∧ p.currentToken.type ≠ TokenType.MULTIPLY ∧
      p.currentToken.type ≠ TokenType.DIVIDE := by
  cases post with
  | nil =>
    obtain ⟨p, hp, ht⟩ := stateAt_nil pre
    exact ⟨p, hp, by simp [ht]⟩
  | cons d rest =>
    simp only [endsTerm, Bool.or_eq_true, decide_eq_true_eq] at h
    rcases h with ((((rfl | rfl) | rfl) | rfl) | rfl) | rfl
    · obtain ⟨p, hp, ht, _⟩ := stateAt_punct pre rest '+' TokenType.PLUS (by decide)
      exact ⟨p, hp, by simp [ht]⟩
    · obtain ⟨p, hp, ht, _⟩ := stateAt_punct pre rest '-' TokenType.MINUS (by decide)
      exact ⟨p, hp, by simp [ht]⟩
    · obtain ⟨p, hp, ht, _⟩ := stateAt_punct pre rest '(' TokenType.LPAREN (by decide)
      exact ⟨p, hp, by simp [ht]⟩
    · obtain ⟨p, hp, ht, _⟩ := stateAt_punct pre rest ')' TokenType.RPAREN (by decide)
      exact ⟨p, hp, by simp [ht]⟩
    · obtain ⟨p, hp, ht, _⟩ := stateAt_punct pre rest '=' TokenType.ASSIGN (by decide)
      exact ⟨p, hp, by simp [ht]⟩
    · obtain ⟨p, hp, ht, _⟩ := stateAt_punct pre rest ',' TokenType.CALL (by decide)
      exact ⟨p, hp, by simp [ht]⟩

theorem termLoop_stop (n : Nat) (vars : Env) (r : Int) (p : Parser)
    (h1 : p.currentToken.type ≠ TokenType.MULTIPLY)
    (h2 : p.currentToken.type ≠ TokenType.DIVIDE) :
    Parser.termLoop (n + 1) vars r p = .ok (r, p) := by
  simp only [Parser.termLoop, if_neg h1, if_neg h2]

theorem exprLoop_stop (n : Nat) (vars : Env) (r : Int) (p : Parser)
    (h1 : p.currentToken.type ≠ TokenType.PLUS)
    (h2 : p.currentToken.type ≠ TokenType.MINUS) :
    Parser.exprLoop (n + 1) vars r p = .ok (r, p) := by
  simp only [Parser.exprLoop, if_neg h1, if_neg h2]

theorem inRange_eq_some {a v : Int} (h : inRange a = some v) :
    a = v ∧ INT_MIN ≤ v ∧ v ≤ INT_MAX := by
  unfold inRange at h
  split_ifs at h with hr
  simp only [Option.some.injEq] at h
  subst h
  exact ⟨rfl, hr⟩

theorem checkInt_of_inRange {a v : Int} (h : inRange a = some v) : checkInt a = .ok v := by
  obtain ⟨rfl, h1, h2⟩ := inRange_eq_some h
  simp only [checkInt, h1, h2, and_self, if_true]

theorem stoi_literal (ds : List Char) (v : Int) (hds : isLiteral ds = true)
    (hv : inRange (digitsValue ds) = some v) : stoi ds = .ok v := by
  obtain ⟨rfl, _, h2⟩ := inRange_eq_some hv
  have hall : ds.all Char.isDigit = true := by
    simp only [isLiteral, Bool.and_eq_true] at hds
    exact hds.2
  have hne : ds ≠ [] := by
    intro h
    subst h
    simp [isLiteral] at hds
  have ht : ds.takeWhile Char.isDigit = ds := by
    have := takeWhile_run Char.isDigit ds [] hall (by simp)
    simpa using this
  simp only [stoi, ht, if_neg hne, h2, if_true]

mutual
theorem factor_sound (vars : Env) : ∀ (f : Factor) (v : Int) (pre post : List Char),
    f.value vars = some v → f.wellFormed = true → delimits post = true →
    ∃ p p', stateAt pre (f.text ++ post) = .ok p ∧ stateAt (pre ++ f.text) post = .ok p' ∧
      ∃ n, Parser.factor n vars p = .ok (v, p')
  | .num ds, v, pre, post, hv, hwf, hpost => by
    simp only [Factor.value] at hv
    simp only [Factor.wellFormed] at hwf
    simp only [Factor.text]
    obtain ⟨p, hp, htok, heat⟩ := stateAt_number pre ds post hwf
      (fun c hc => (delimits_head post hpost c hc).1)
    obtain ⟨p', hp'⟩ := delimits_stateAt (pre ++ ds) post hpost
    refine ⟨p, p', hp, hp', 1, ?_⟩
    simp only [Parser.factor, htok, if_true, stoi_literal ds v hwf hv, Result.bind, heat, hp']
  | .var x, v, pre, post, hv, hwf, hpost => by
    simp only [Factor.value] at hv
    simp only [Factor.wellFormed] at hwf
    simp only [Factor.text]
    obtain ⟨p, hp, htok, heat⟩ := stateAt_ident pre x post hwf
      (fun c hc => (delimits_head post hpost c hc).2)
    obtain ⟨p', hp'⟩ := delimits_stateAt (pre ++ x) post hpost
    refine ⟨p, p', hp, hp', 1, ?_⟩
    have hne : TokenType.VARIABLE ≠ TokenType.NUMBER := by decide
    simp only [Parser.factor, htok, if_neg hne, if_true, Result.bind, heat, hp', hv]
  | .paren e, v, pre, post, hv, hwf, hpost => by
    simp only [Factor.value] at hv
    simp only [Factor.wellFormed] at hwf
    obtain ⟨p1, p2, hp1, hp2, hK⟩ :=
      expr_sound vars e v (pre ++ ['(']) (')' :: post) hv hwf (by rfl)
    obtain ⟨p, hp, htok, heat⟩ :=
      stateAt_punct pre (e.text ++ ')' :: post) '(' TokenType.LPAREN (by decide)
    obtain ⟨q, hq, hqtok, hqeat⟩ :=
      stateAt_punct (pre ++ ['('] ++ e.text) post ')' TokenType.RPAREN (by decide)
    have hqp : q = p2 := by
      rw [hq] at hp2
      injection hp2
    subst hqp
    obtain ⟨p', hp'⟩ := delimits_stateAt (pre ++ ['('] ++ e.text ++ [')']) post hpost
    obtain ⟨n, hn⟩ := hK (.ok (v, q)) (by simp)
      ⟨1, exprLoop_stop 0 vars v q (by simp [hqtok]) (by simp [hqtok])⟩
    have e1 : (Factor.paren e).text ++ post = '(' :: (e.text ++ ')' :: post) := by
      simp [Factor.text]
    have e2 : pre ++ (Factor.paren e).text = pre ++ ['('] ++ e.text ++ [')'] := by
      simp [Factor.text]
    rw [e1, e2]
    refine ⟨p, p', hp, hp', n + 1, ?_⟩
    have hne1 : TokenType.LPAREN ≠ TokenType.NUMBER := by decide
    have hne2 : TokenType.LPAREN ≠ TokenType.VARIABLE := by decide
    simp only [Parser.factor, htok, if_neg hne1, if_neg hne2, if_true, heat, hp1, Result.bind,
      hn, hqeat, hp']
theorem term_sound (vars : Env) : ∀ (t : Term) (v : Int) (pre post : List Char),
    t.value vars = some v → t.wellFormed = true → delimits post = true →
    ∃ p p', stateAt pre (t.text ++ post) = .ok p ∧ stateAt (pre ++ t.text) post = .ok p' ∧
      ∀ K, K ≠ .outOfFuel → (∃ n, Parser.termLoop n vars v p' = K) →
        ∃ n, Parser.term n vars p = K
  | .factor f, v, pre, post, hv, hwf, hpost => by
    simp only [Term.value] at hv
    simp only [Term.wellFormed] at hwf
    simp only [Term.text]
    obtain ⟨p, p', hp, hp', n, hn⟩ := factor_sound vars f v pre post hv hwf hpost
    refine ⟨p, p', hp, hp', ?_⟩
    rintro K hK ⟨n2, hn2⟩
    refine ⟨max n n2 + 1, ?_⟩
    have h1 := Result.le_ok (factor_mono (le_max_left n n2) vars p) hn
    have h2 := Result.le_eq (termLoop_mono (le_max_right n n2) vars v p') (by rw [hn2]; exact hK)
    simp only [Parser.term, h1, Result.bind, h2, hn2]
  | .mul t f, v, pre, post, hv, hwf, hpost => by
    simp only [Term.value, Option.bind_eq_some] at hv
    obtain ⟨a, ha, b, hb, hab⟩ := hv
    simp only [Term.wellFormed, Bool.and_eq_true] at hwf
    obtain ⟨p, p1, hp, hp1, hK⟩ :=
      term_sound vars t a pre ('*' :: (f.text ++ post)) ha hwf.1 (by rfl)
    obtain ⟨q, hq, hqtok, hqeat⟩ :=
      stateAt_punct (pre ++ t.text) (f.text ++ post) '*' TokenType.MULTIPLY (by decide)
    have hqp : q = p1 := by
      rw [hq] at hp1
      injection hp1
    subst hqp
    obtain ⟨p2, p', hp2, hp', n, hn⟩ :=
      factor_sound vars f b (pre ++ t.text ++ ['*']) post hb hwf.2 hpost
    have e1 : (Term.mul t f).text ++ post = t.text ++ '*' :: (f.text ++ post) := by
      simp [Term.text]
    have e2 : pre ++ (Term.mul t f).text = pre ++ t.text ++ ['*'] ++ f.text := by
      simp [Term.text]
    rw [e1, e2]
    refine ⟨p, p', hp, hp', ?_⟩
    rintro K hKne ⟨n2, hn2⟩
    apply hK K hKne
    refine ⟨max n n2 + 1, ?_⟩
    have h1 := Result.le_ok (factor_mono (le_max_left n n2) vars p2) hn
    have h2 := Result.le_eq (termLoop_mono (le_max_right n n2) vars v p')
      (by rw [hn2]; exact hKne)
    simp only [Parser.termLoop, hqtok, if_true, hqeat, hp2, Result.bind, h1,
      checkInt_of_inRange hab, h2, hn2]
  | .div t f, v, pre, post, hv, hwf, hpost => by
    simp only [Term.value, Option.bind_eq_some] at hv
    obtain ⟨a, ha, b, hb, hab⟩ := hv
    split_ifs at hab with hb0
    simp only [Term.wellFormed, Bool.and_eq_true] at hwf
    obtain ⟨p, p1, hp, hp1, hK⟩ :=
      term_sound vars t a pre ('/' :: (f.text ++ post)) ha hwf.1 (by rfl)
    obtain ⟨q, hq, hqtok, hqeat⟩ :=
      stateAt_punct (pre ++ t.text) (f.text ++ post) '/' TokenType.DIVIDE (by decide)
    have hqp : q = p1 := by
      rw [hq] at hp1
      injection hp1
    subst hqp
    obtain ⟨p2, p', hp2, hp', n, hn⟩ :=
      factor_sound vars f b (pre ++ t.text ++ ['/']) post hb hwf.2 hpost
    have e1 : (Term.div t f).text ++ post = t.text ++ '/' :: (f.text ++ post) := by
      simp [Term.text]
    have e2 : pre ++ (Term.div t f).text = pre ++ t.text ++ ['/'] ++ f.text := by
      simp [Term.text]
    rw [e1, e2]
    refine ⟨p, p', hp, hp', ?_⟩
    rintro K hKne ⟨n2, hn2⟩
    apply hK K hKne
    refine ⟨max n n2 + 1, ?_⟩
    have h1 := Result.le_ok (factor_mono (le_max_left n n2) vars p2) hn
    have h2 := Result.le_eq (termLoop_mono (le_max_right n n2) vars v p')
      (by rw [hn2]; exact hKne)
    have hne : TokenType.DIVIDE ≠ TokenType.MULTIPLY := by decide
    simp only [Parser.termLoop, hqtok, if_neg hne, if_true, hqeat, hp2, Result.bind, h1,
      divInt, if_neg hb0, checkInt_of_inRange hab, h2, hn2]
theorem expr_sound (vars : Env) : ∀ (e : Expr) (v : Int) (pre post : List Char),
    e.value vars = some v → e.wellFormed = true → endsTerm post = true →
    ∃ p p', stateAt pre (e.text ++ post) = .ok p ∧ stateAt (pre ++ e.text) post = .ok p' ∧
      ∀ K, K ≠ .outOfFuel → (∃ n, Parser.exprLoop n vars v p' = K) →
        ∃ n, Parser.expr n vars p = K
  | .term t, v, pre, post, hv, hwf, hpost => by
    simp only [Expr.value] at hv
    simp only [Expr.wellFormed] at hwf
    simp only [Expr.text]
    obtain ⟨p, p', hp, hp', hK⟩ :=
      term_sound vars t v pre post hv hwf (endsTerm_delimits post hpost)
    obtain ⟨q, hq, hs1, hs2⟩ := endsTerm_stateAt (pre ++ t.text) post hpost
    have hqp : q = p' := by
      rw [hq] at hp'
      injection hp'
    subst hqp
    obtain ⟨n, hn⟩ := hK (.ok (v, q)) (by simp) ⟨1, termLoop_stop 0 vars v q hs1 hs2⟩
    refine ⟨p, q, hp, hp', ?_⟩
    rintro K hKne ⟨n2, hn2⟩
    refine ⟨max n n2 + 1, ?_⟩
    have h1 := Result.le_ok (term_mono (le_max_left n n2) vars p) hn
    have h2 := Result.le_eq (exprLoop_mono (le_max_right n n2) vars v q)
      (by rw [hn2]; exact hKne)
    simp only [Parser.expr, h1, Result.bind, h2, hn2]
  | .add e t, v, pre, post, hv, hwf, hpost => by
    simp only [Expr.value, Option.bind_eq_some] at hv
    obtain ⟨a, ha, b, hb, hab⟩ := hv
    simp only [Expr.wellFormed, Bool.and_eq_true] at hwf
    obtain ⟨p, p1, hp, hp1, hK⟩ :=
      expr_sound vars e a pre ('+' :: (t.text ++ post)) ha hwf.1 (by rfl)
    obtain ⟨q, hq, hqtok, hqeat⟩ :=
      stateAt_punct (pre ++ e.text) (t.text ++ post) '+' TokenType.PLUS (by decide)
    have hqp : q = p1 := by
      rw [hq] at hp1
      injection hp1
    subst hqp
    obtain ⟨p2, p', hp2, hp', hKt⟩ :=
      term_sound vars t b (pre ++ e.text ++ ['+']) post hb hwf.2 (endsTerm_delimits post hpost)
    obtain ⟨q2, hq2, hs1, hs2⟩ := endsTerm_stateAt (pre ++ e.text ++ ['+'] ++ t.text) post hpost
    have hqp2 : q2 = p' := by
      rw [hq2] at hp'
      injection hp'
    subst hqp2
    obtain ⟨n, hn⟩ := hKt (.ok (b, q2)) (by simp) ⟨1, termLoop_stop 0 vars b q2 hs1 hs2⟩
    have e1 : (Expr.add e t).text ++ post = e.text ++ '+' :: (t.text ++ post) := by
      simp [Expr.text]
    have e2 : pre ++ (Expr.add e t).text = pre ++ e.text ++ ['+'] ++ t.text := by
      simp [Expr.text]
    rw [e1, e2]
    refine ⟨p, q2, hp, hp', ?_⟩
    rintro K hKne ⟨n2, hn2⟩
    apply hK K hKne
    refine ⟨max n n2 + 1, ?_⟩
    have h1 := Result.le_ok (term_mono (le_max_left n n2) vars p2) hn
    have h2 := Result.le_eq (exprLoop_mono (le_max_right n n2) vars v q2)
      (by rw [hn2]; exact hKne)
    simp only [Parser.exprLoop, hqtok, if_true, hqeat, hp2, Result.bind, h1,
      checkInt_of_inRange hab, h2, hn2]
  | .sub e t, v, pre, post, hv, hwf, hpost => by
    simp only [Expr.value, Option.bind_eq_some] at hv
    obtain ⟨a, ha, b, hb, hab⟩ := hv
    simp only [Expr.wellFormed, Bool.and_eq_true] at hwf
    obtain ⟨p, p1, hp, hp1, hK⟩ :=
      expr_sound vars e a pre ('-' :: (t.text ++ post)) ha hwf.1 (by rfl)
    obtain ⟨q, hq, hqtok, hqeat⟩ :=
      stateAt_punct (pre ++ e.text) (t.text ++ post) '-' TokenType.MINUS (by decide)
    have hqp : q = p1 := by
      rw [hq] at hp1
      injection hp1
    subst hqp
    obtain ⟨p2, p', hp2, hp', hKt⟩ :=
      term_sound vars t b (pre ++ e.text ++ ['-']) post hb hwf.2 (endsTerm_delimits post hpost)
    obtain ⟨q2, hq2, hs1, hs2⟩ := endsTerm_stateAt (pre ++ e.text ++ ['-'] ++ t.text) post hpost
    have hqp2 : q2 = p' := by
      rw [hq2] at hp'
      injection hp'
    subst hqp2
    obtain ⟨n, hn⟩ := hKt (.ok (b, q2)) (by simp) ⟨1, termLoop_stop 0 vars b q2 hs1 hs2⟩
    have e1 : (Expr.sub e t).text ++ post = e.text ++ '-' :: (t.text ++ post) := by
      simp [Expr.text]
    have e2 : pre ++ (Expr.sub e t).text = pre ++ e.text ++ ['-'] ++ t.text := by
      simp [Expr.text]
    rw [e1, e2]
    refine ⟨p, q2, hp, hp', ?_⟩
    rintro K hKne ⟨n2, hn2⟩
    apply hK K hKne
    refine ⟨max n n2 + 1, ?_⟩
    have h1 := Result.le_ok (term_mono (le_max_left n n2) vars p2) hn
    have h2 := Result.le_eq (exprLoop_mono (le_max_right n n2) vars v q2)
      (by rw [hn2]; exact hKne)
    have hne : TokenType.MINUS ≠ TokenType.PLUS := by decide
    simp only [Parser.exprLoop, hqtok, if_neg hne, if_true, hqeat, hp2, Result.bind, h1,
      checkInt_of_inRange hab, h2, hn2]
end

/-! ## Statements: more fuel never changes an outcome -/

theorem skipToElseOrEnd_mono (n : Nat) : ∀ m, n ≤ m → ∀ p,
    (Parser.skipToElseOrEnd n p).le (Parser.skipToElseOrEnd m p) := by
  induction n with
  | zero => intro m _ p; exact Or.inl rfl
  | succ n ih =>
    intro m hm p
    obtain ⟨k, rfl⟩ : ∃ k, m = k + 1 := ⟨m - 1, by omega⟩
    simp only [Parser.skipToElseOrEnd]
    split_ifs
    · exact Result.bind_le (Result.le_refl _) fun p1 => ih k (by omega) p1
    · exact Result.le_refl _

theorem skipToEnd_mono (n : Nat) : ∀ m, n ≤ m → ∀ p,
    (Parser.skipToEnd n p).le (Parser.skipToEnd m p) := by
  induction n with
  | zero => intro m _ p; exact Or.inl rfl
  | succ n ih =>
    intro m hm p
    obtain ⟨k, rfl⟩ : ∃ k, m = k + 1 := ⟨m - 1, by omega⟩
    simp only [Parser.skipToEnd]
    split_ifs
    · exact Result.bind_le (Result.le_refl _) fun p1 => ih k (by omega) p1
    · exact Result.le_refl _

theorem paramLoop_mono (n : Nat) : ∀ m, n ≤ m → ∀ p,
    (Parser.paramLoop n p).le (Parser.paramLoop m p) := by
  induction n with
  | zero => intro m _ p; exact Or.inl rfl
  | succ n ih =>
    intro m hm p
    obtain ⟨k, rfl⟩ : ∃ k, m = k + 1 := ⟨m - 1, by omega⟩
    simp only [Parser.paramLoop]
    split_ifs
    · refine Result.bind_le (Result.le_refl _) fun p1 => ?_
      split_ifs
      · exact Result.le_refl _
      · exact Result.bind_le (Result.le_refl _) fun p2 => ih k (by omega) p2
    · exact Result.le_refl _

theorem whileLoop_mono (n : Nat) : ∀ m, n ≤ m → ∀ vars c p,
    (Parser.whileLoop n vars c p).le (Parser.whileLoop m vars c p) := by
  induction n with
  | zero => intro m _ vars c p; exact Or.inl rfl
  | succ n ih =>
    intro m hm vars c p
    obtain ⟨k, rfl⟩ : ∃ k, m = k + 1 := ⟨m - 1, by omega⟩
    have hk : n ≤ k := by omega
    simp only [Parser.whileLoop]
    split_ifs
    · refine Result.bind_le (skipToEnd_mono n k hk p) fun p1 => ?_
      refine Result.bind_le (Result.le_refl _) fun p2 => ?_
      refine Result.bind_le (Result.le_refl _) fun p3 => ?_
      refine Result.bind_le (expr_mono hk vars p3) fun r => ?_
      refine Result.bind_le (Result.le_refl _) fun p4 => ?_
      exact ih k hk vars r.1 p4
    · exact Result.le_refl _

theorem statement_mono {n m : Nat} (h : n ≤ m) (vars : Env) (p : Parser) :
    (Parser.statement n vars p).le (Parser.statement m vars p) := by
  simp only [Parser.statement]
  split_ifs
  · refine Result.bind_le (Result.le_refl _) fun p1 => ?_
    refine Result.bind_le (Result.le_refl _) fun p2 => ?_
    refine Result.bind_le (expr_mono h vars p2) fun r => ?_
    refine Result.bind_le (Result.le_refl _) fun p3 => ?_
    split_ifs
    · exact Result.bind_le (skipToElseOrEnd_mono n m h p3) fun p4 => Result.le_refl _
    · refine Result.bind_le (skipToElseOrEnd_mono n m h p3) fun p4 => ?_
      split_ifs
      · refine Result.bind_le (Result.le_refl _) fun p5 => ?_
        exact Result.bind_le (skipToEnd_mono n m h p5) fun p6 => Result.le_refl _
      · exact Result.le_refl _
  · refine Result.bind_le (Result.le_refl _) fun p1 => ?_
    refine Result.bind_le (Result.le_refl _) fun p2 => ?_
    refine Result.bind_le (expr_mono h vars p2) fun r => ?_
    refine Result.bind_le (Result.le_refl _) fun p3 => ?_
    exact Result.bind_le (whileLoop_mono n m h vars r.1 p3) fun p4 => Result.le_refl _
  · refine Result.bind_le (Result.le_refl _) fun p1 => ?_
    refine Result.bind_le (Result.le_refl _) fun p2 => ?_
    refine Result.bind_le (Result.le_refl _) fun p3 => ?_
    refine Result.bind_le (paramLoop_mono n m h p3) fun p4 => ?_
    refine Result.bind_le (Result.le_refl _) fun p5 => ?_
    exact Result.bind_le (expr_mono h vars p5) fun r => Result.le_refl _
  · refine Result.bind_le (Result.le_refl _) fun p1 => ?_
    refine Result.bind_le (Result.le_refl _) fun p2 => ?_
    exact Result.bind_le (expr_mono h vars p2) fun r => Result.le_refl _
  · exact Result.bind_le (expr_mono h vars p) fun r => Result.le_refl _

theorem parse_mono (n : Nat) : ∀ m, n ≤ m → ∀ vars p,
    (Parser.parse n vars p).le (Parser.parse m vars p) := by
  induction n with
  | zero => intro m _ vars p; exact Or.inl rfl
  | succ n ih =>
    intro m hm vars p
    obtain ⟨k, rfl⟩ : ∃ k, m = k + 1 := ⟨m - 1, by omega⟩
    have hk : n ≤ k := by omega
    simp only [Parser.parse]
    split_ifs
    · exact Result.bind_le (statement_mono hk vars p) fun r => ih k hk r.1 r.2
    · exact Result.le_refl _

theorem parseFrom_mono {n m : Nat} (h : n ≤ m) (input : List Char) (vars : Env) :
    (parseFrom n input vars).le (parseFrom m input vars) :=
  Result.bind_le (Result.le_refl _) fun p => parse_mono n m h vars p

theorem run_mono {n m : Nat} (h : n ≤ m) (input : List Char) (vars : Env) :
    (run n input vars).le (run m input vars) :=
  Result.bind_le (Result.le_refl _) fun p => parse_mono n m h vars p

/-- An outcome reached with some fuel is the only outcome other than exhausted
fuel. -/
theorem Result.le_cases {α : Type} {f : Nat → Result α}
    (hmono : ∀ n m, n ≤ m → (f n).le (f m)) {n : Nat} {r : Result α}
    (h : f n = r) (hr : r ≠ .outOfFuel) (m : Nat) : f m = .outOfFuel ∨ f m = r := by
  rcases Nat.le_total n m with hnm | hmn
  · right
    rw [← h]
    exact Result.le_eq (hmono n m hnm) (by rw [h]; exact hr)
  · rcases hmono m n hmn with h1 | h1
    · exact Or.inl h1
    · exact Or.inr (h1.trans h)

theorem expr_sound_stops (vars : Env) (e : Expr) (v : Int) (pre post : List Char) (p : Parser)
    (hv : e.value vars = some v) (hwf : e.wellFormed = true) (hpost : stops post = true)
    (hp : stateAt pre (e.text ++ post) = .ok p) :
    ∃ p', stateAt (pre ++ e.text) post = .ok p' ∧
      ∃ n, ∀ m, n ≤ m → Parser.expr m vars p = .ok (v, p') := by
  obtain ⟨p0, p', hp0, hp', hK⟩ :=
    expr_sound vars e v pre post hv hwf (stops_endsTerm post hpost)
  have hpp : p0 = p := by
    rw [hp0] at hp
    injection hp
  subst hpp
  obtain ⟨q, hq, h1, h2, _, _⟩ := stops_stateAt (pre ++ e.text) post hpost
  have hqp : q = p' := by
    rw [hq] at hp'
    injection hp'
  subst hqp
  obtain ⟨n, hn⟩ := hK (.ok (v, q)) (by simp) ⟨1, exprLoop_stop 0 vars v q h1 h2⟩
  exact ⟨q, hp', n, fun m hm => Result.le_ok (expr_mono hm vars p0) hn⟩

/-! ## The store -/

theorem Env.find_set_same (vars : Env) (n : List Char) (v : Int) :
    (vars.set n v).find n = some v := by
  induction vars with
  | nil => simp [Env.set, Env.find]
  | cons b rest ih =>
    obtain ⟨m, w⟩ := b
    by_cases h : m = n
    · simp [Env.set, Env.find, h]
    · simp [Env.set, Env.find, h, ih]

theorem Env.find_set_other (vars : Env) (n k : List Char) (v : Int) (h : k ≠ n) :
    (vars.set n v).find k = vars.find k := by
  induction vars with
  | nil => simp [Env.set, Env.find, Ne.symm h]
  | cons b rest ih =>
    obtain ⟨m, w⟩ := b
    by_cases hm : m = n
    · subst hm
      simp [Env.set, Env.find, Ne.symm h]
    · by_cases hk : m = k
      · subst hk
        simp [Env.set, Env.find, hm]
      · simp [Env.set, Env.find, hm, hk, ih]

theorem factor_variable (fuel : Nat) (vars : Env) (p : Parser) (n : List Char)
    (htok : p.currentToken = ⟨TokenType.VARIABLE, n⟩) :
    Parser.factor (fuel + 1) vars p
      = (p.eat TokenType.VARIABLE).bind fun p1 =>
          match vars.find n with
          | some value => .ok (value, p1)
          | none => .error Error.UndefinedVariable := by
  have hne : TokenType.VARIABLE ≠ TokenType.NUMBER := by decide
  simp only [Parser.factor, htok, if_neg hne, if_true]

theorem factor_unbound_cases (fuel : Nat) (vars : Env) (p : Parser) (n : List Char)
    (htok : p.currentToken = ⟨TokenType.VARIABLE, n⟩) (hn : vars.find n = none) :
    ((∃ t l, p.lexer.getNextToken = .ok (t, l)) ∧
        Parser.factor (fuel + 1) vars p = .error Error.UndefinedVariable) ∨
      (p.lexer.getNextToken = .error Error.InvalidCharacter ∧
        Parser.factor (fuel + 1) vars p = .error Error.InvalidCharacter) := by
  rw [factor_variable fuel vars p n htok, Parser.eat_eq_at p _ (by rw [htok])]
  rcases getNextToken_ok_or_invalid p.lexer with ⟨t, l, h⟩ | h
  · left
    refine ⟨⟨t, l, h⟩, ?_⟩
    simp only [Parser.at, h, Result.bind, hn]
  · right
    refine ⟨h, ?_⟩
    simp only [Parser.at, h, Result.bind]

/-! ## Progress of the scanner and the skipping loop -/

theorem takeWhile_cons_length_pos (p : Char → Bool) (c : Char) (rest : List Char)
    (h : p c = true) : 0 < ((c :: rest).takeWhile p).length := by
  simp [List.takeWhile_cons, h]

/-- A successful scan keeps the buffer; at the end of the buffer it returns END
and leaves the cursor, elsewhere it moves the cursor forward. -/
theorem getNextToken_progress (l : Lexer) (t : Token) (l1 : Lexer)
    (h : l.getNextToken = .ok (t, l1)) :
    l1.input = l.input ∧
      ((l.input.length ≤ l.position ∧ t = ⟨TokenType.END, []⟩ ∧ l1 = l) ∨
        (l.position < l.input.length ∧ l.position < l1.position ∧
          t.type ≠ TokenType.END)) := by
  unfold Lexer.getNextToken at h
  cases hd : l.input.drop l.position with
  | nil =>
    rw [hd] at h
    simp only [Result.ok.injEq, Prod.mk.injEq] at h
    obtain ⟨rfl, rfl⟩ := h
    exact ⟨rfl, Or.inl ⟨List.drop_eq_nil_iff.mp hd, rfl, rfl⟩⟩
  | cons c rest =>
    have hlt : l.position < l.input.length := by
      by_contra hge
      have := List.drop_eq_nil_iff.mpr (Nat.le_of_not_lt hge)
      rw [this] at hd
      cases hd
    rw [hd] at h
    dsimp only at h
    by_cases h1 : c.isDigit = true
    · rw [if_pos h1] at h
      simp only [Result.ok.injEq, Prod.mk.injEq, scanRun_eq] at h
      obtain ⟨rfl, rfl⟩ := h
      have := takeWhile_cons_length_pos Char.isDigit c rest h1
      exact ⟨rfl, Or.inr ⟨hlt, by simp only; omega, by simp⟩⟩
    rw [if_neg h1] at h
    by_cases h2 : c.isAlpha = true
    · rw [if_pos h2] at h
      simp only [Result.ok.injEq, Prod.mk.injEq, scanRun_eq] at h
      obtain ⟨rfl, rfl⟩ := h
      have hic : isIdentChar c = true := by simp [isIdentChar, Char.isAlphanum, h2]
      have := takeWhile_cons_length_pos isIdentChar c rest hic
      refine ⟨rfl, Or.inr ⟨hlt, by simp only; omega, ?_⟩⟩
      unfold classify
      split_ifs <;> simp
    rw [if_neg h2] at h
    by_cases h3 : c = '+'
    · rw [if_pos h3] at h
      simp only [Result.ok.injEq, Prod.mk.injEq] at h
      obtain ⟨rfl, rfl⟩ := h
      exact ⟨rfl, Or.inr ⟨hlt, by simp, by simp⟩⟩
    rw [if_neg h3] at h
    by_cases h4 : c = '-'
    · rw [if_pos h4] at h
      simp only [Result.ok.injEq, Prod.mk.injEq] at h
      obtain ⟨rfl, rfl⟩ := h
      exact ⟨rfl, Or.inr ⟨hlt, by simp, by simp⟩⟩
    rw [if_neg h4] at h
    by_cases h5 : c = '*'
    · rw [if_pos h5] at h
      simp only [Result.ok.injEq, Prod.mk.injEq] at h
      obtain ⟨rfl, rfl⟩ := h
      exact ⟨rfl, Or.inr ⟨hlt, by simp, by simp⟩⟩
    rw [if_neg h5] at h
    by_cases h6 : c = '/'
    · rw [if_pos h6] at h
      simp only [Result.ok.injEq, Prod.mk.injEq] at h
      obtain ⟨rfl, rfl⟩ := h
      exact ⟨rfl, Or.inr ⟨hlt, by simp, by simp⟩⟩
    rw [if_neg h6] at h
    by_cases h7 : c = '('
    · rw [if_pos h7] at h
      simp only [Result.ok.injEq, Prod.mk.injEq] at h
      obtain ⟨rfl, rfl⟩ := h
      exact ⟨rfl, Or.inr ⟨hlt, by simp, by simp⟩⟩
    rw [if_neg h7] at h
    by_cases h8 : c = ')'
    · rw [if_pos h8] at h
      simp only [Result.ok.injEq, Prod.mk.injEq] at h
      obtain ⟨rfl, rfl⟩ := h
      exact ⟨rfl, Or.inr ⟨hlt, by simp, by simp⟩⟩
    rw [if_neg h8] at h
    by_cases h9 : c = '='
    · rw [if_pos h9] at h
      simp only [Result.ok.injEq, Prod.mk.injEq] at h
      obtain ⟨rfl, rfl⟩ := h
      exact ⟨rfl, Or.inr ⟨hlt, by simp, by simp⟩⟩
    rw [if_neg h9] at h
    by_cases h10 : c = ','
    · rw [if_pos h10] at h
      simp only [Result.ok.injEq, Prod.mk.injEq] at h
      obtain ⟨rfl, rfl⟩ := h
      exact ⟨rfl, Or.inr ⟨hlt, by simp, by simp⟩⟩
    rw [if_neg h10] at h
    cases h

/-- The loop `while (type != END) eat(type)` ends: with "Invalid character",
or on the END token. -/
theorem skipToEnd_total (k : Nat) : ∀ p : Parser,
    p.lexer.input.length - p.lexer.position ≤ k →
    ∃ N, Parser.skipToEnd N p = .error Error.InvalidCharacter ∨
      ∃ p', Parser.skipToEnd N p = .ok p' ∧ p'.currentToken.type = TokenType.END := by
  induction k with
  | zero =>
    intro p hk
    by_cases hend : p.currentToken.type = TokenType.END
    · exact ⟨1, Or.inr ⟨p, by simp [Parser.skipToEnd, hend], hend⟩⟩
    · rcases getNextToken_ok_or_invalid p.lexer with ⟨t, l1, h⟩ | h
      · obtain ⟨_, hcase⟩ := getNextToken_progress p.lexer t l1 h
        rcases hcase with ⟨_, ht, _⟩ | ⟨hlt, _, _⟩
        · refine ⟨2, Or.inr ⟨⟨l1, t⟩, ?_, by rw [ht]⟩⟩
          simp [Parser.skipToEnd, hend, Parser.eat, h, Result.bind, ht]
        · omega
      · exact ⟨1, Or.inl (by simp [Parser.skipToEnd, hend, Parser.eat, h, Result.bind])⟩
  | succ k ih =>
    intro p hk
    by_cases hend : p.currentToken.type = TokenType.END
    · exact ⟨1, Or.inr ⟨p, by simp [Parser.skipToEnd, hend], hend⟩⟩
    · rcases getNextToken_ok_or_invalid p.lexer with ⟨t, l1, h⟩ | h
      · obtain ⟨hin, hcase⟩ := getNextToken_progress p.lexer t l1 h
        rcases hcase with ⟨_, ht, _⟩ | ⟨hlt, hpos, _⟩
        · refine ⟨2, Or.inr ⟨⟨l1, t⟩, ?_, by rw [ht]⟩⟩
          simp [Parser.skipToEnd, hend, Parser.eat, h, Result.bind, ht]
        · obtain ⟨N, hN⟩ := ih ⟨l1, t⟩ (by simp only [hin]; omega)
          refine ⟨N + 1, ?_⟩
          simpa [Parser.skipToEnd, hend, Parser.eat, h, Result.bind] using hN
      · exact ⟨1, Or.inl (by simp [Parser.skipToEnd, hend, Parser.eat, h, Result.bind])⟩

/-- The while branch with a guard of non-zero value: after the guard, the
loop skips to the end of the input and `eat(WHILE)` meets the END token. -/
theorem whileLoop_nonzero (vars : Env) (v : Int) (p : Parser) (hv0 : v ≠ 0) :
    ∃ err, (err = Error.UnexpectedToken ∨ err = Error.InvalidCharacter) ∧
      ∃ N, ∀ m, N ≤ m → Parser.whileLoop m vars v p = .error err := by
  obtain ⟨N2, hN2⟩ := skipToEnd_total _ p (le_refl _)
  rcases hN2 with h | ⟨p4, h, hend⟩
  · refine ⟨Error.InvalidCharacter, Or.inr rfl, N2 + 1, fun m hm => ?_⟩
    obtain ⟨k, rfl⟩ : ∃ k, m = k + 1 := ⟨m - 1, by omega⟩
    have h1 := Result.le_error (skipToEnd_mono N2 k (by omega) p) h
    simp only [Parser.whileLoop, hv0, ne_eq, not_false_eq_true, if_true, h1, Result.bind]
  · refine ⟨Error.UnexpectedToken, Or.inl rfl, N2 + 1, fun m hm => ?_⟩
    obtain ⟨k, rfl⟩ : ∃ k, m = k + 1 := ⟨m - 1, by omega⟩
    have h1 := Result.le_ok (skipToEnd_mono N2 k (by omega) p) h
    have hne : ¬ p4.currentToken.type = TokenType.WHILE := by rw [hend]; decide
    simp only [Parser.whileLoop, hv0, ne_eq, not_false_eq_true, if_true, h1, Result.bind,
      Parser.eat, if_neg hne]

theorem while_nonzero_outcome (vars : Env) (e : Expr) (v : Int) (body : List Char)
    (hv : e.value vars = some v) (hv0 : v ≠ 0) (hwf : e.wellFormed = true) :
    ∃ err, (err = Error.UnexpectedToken ∨ err = Error.InvalidCharacter) ∧
      ∃ N, ∀ m, N ≤ m →
        parseFrom m ("while(".toList ++ e.text ++ ')' :: body) vars = .error err := by
  obtain ⟨p0, hp0, htok0, heat0⟩ :=
    stateAt_word [] "while".toList ('(' :: (e.text ++ ')' :: body)) (by decide)
      (by
        intro c hc
        simp only [List.head?_cons, Option.mem_def, Option.some.injEq] at hc
        subst hc
        decide)
  have hcl : classify "while".toList = ⟨TokenType.WHILE, "while".toList⟩ := by decide
  rw [hcl] at htok0 heat0
  obtain ⟨q1, hq1, hq1tok, hq1eat⟩ :=
    stateAt_punct ([] ++ "while".toList) (e.text ++ ')' :: body) '(' TokenType.LPAREN
      (by decide)
  obtain ⟨p1, p2, hp1, hp2, hK⟩ :=
    expr_sound vars e v ([] ++ "while".toList ++ ['(']) (')' :: body) hv hwf (by rfl)
  obtain ⟨q2, hq2, hq2tok, hq2eat⟩ :=
    stateAt_punct ([] ++ "while".toList ++ ['('] ++ e.text) body ')' TokenType.RPAREN
      (by decide)
  have hqp : q2 = p2 := by
    rw [hq2] at hp2
    injection hp2
  subst hqp
  obtain ⟨n, hn⟩ := hK (.ok (v, q2)) (by simp)
    ⟨1, exprLoop_stop 0 vars v q2 (by simp [hq2tok]) (by simp [hq2tok])⟩
  have hne1 : TokenType.WHILE ≠ TokenType.IF := by decide
  have hne2 : TokenType.WHILE ≠ TokenType.END := by decide
  have hstmt : ∀ m, n ≤ m → Parser.statement m vars p0
      = (stateAt ([] ++ "while".toList ++ ['('] ++ e.text ++ [')']) body).bind fun p =>
          (Parser.whileLoop m vars v p).bind fun p => .ok (vars, p) := by
    intro m hm
    have h1 := Result.le_ok (expr_mono hm vars p1) hn
    simp only [Parser.statement, htok0, if_neg hne1, if_true, heat0, hq1, Result.bind, hq1tok,
      hq1eat, hp1, h1, hq2tok, hq2eat]
  have hin : "while(".toList ++ e.text ++ ')' :: body
      = "while".toList ++ '(' :: (e.text ++ ')' :: body) := by
    simp
  have hparse : ∀ m, parseFrom (m + 1) ("while(".toList ++ e.text ++ ')' :: body) vars
      = (Parser.statement m vars p0).bind fun r => Parser.parse m r.1 r.2 := by
    intro m
    have hp0a := hp0
    simp only [stateAt, List.nil_append, List.length_nil] at hp0a
    simp only [parseFrom, hin, hp0a, Result.bind, Parser.parse, htok0, ne_eq, hne2,
      not_false_eq_true, if_true]
  rcases stateAt_ok_or_invalid ([] ++ "while".toList ++ ['('] ++ e.text ++ [')']) body
    with ⟨p3, hp3⟩ | hp3
  · obtain ⟨err, herr, N, hN⟩ := whileLoop_nonzero vars v p3 hv0
    refine ⟨err, herr, max n N + 1, fun m hm => ?_⟩
    obtain ⟨k, rfl⟩ : ∃ k, m = k + 1 := ⟨m - 1, by omega⟩
    rw [hparse k, hstmt k (by omega), hp3]
    simp only [Result.bind, hN k (by omega)]
  · refine ⟨Error.InvalidCharacter, Or.inr rfl, n + 1, fun m hm => ?_⟩
    obtain ⟨k, rfl⟩ : ∃ k, m = k + 1 := ⟨m - 1, by omega⟩
    rw [hparse k, hstmt k (by omega), hp3]
    simp only [Result.bind]

/-! ## Division -/

theorem tdiv_eq_sign (a b : Int) :
    Int.tdiv a b = Int.sign a * Int.sign b * ((a.natAbs / b.natAbs : Nat) : Int) := by
  obtain ⟨m, rfl | rfl⟩ := Int.eq_nat_or_neg a <;> obtain ⟨n, rfl | rfl⟩ := Int.eq_nat_or_neg b
  all_goals
    rcases Nat.eq_zero_or_pos m with rfl | hm <;> rcases Nat.eq_zero_or_pos n with rfl | hn
    all_goals simp [Int.sign_natCast_of_ne_zero, *, Nat.pos_iff_ne_zero.mp, ← Int.ofNat_tdiv]

theorem tdiv_range (a b : Int) (ha : INT_MIN ≤ a ∧ a ≤ INT_MAX) (hb0 : b ≠ 0)
    (hex : ¬ (a = INT_MIN ∧ b = -1)) :
    INT_MIN ≤ Int.tdiv a b ∧ Int.tdiv a b ≤ INT_MAX := by
  unfold INT_MIN INT_MAX at *
  have h := Int.natAbs_tdiv a b
  have hle : (a.natAbs).div (b.natAbs) ≤ a.natAbs := Nat.div_le_self _ _
  by_cases hb1 : b.natAbs = 1
  · rcases Int.natAbs_eq b with hb | hb
    · rw [hb, hb1]; simp; omega
    · rw [hb, hb1]; simp
      have : b = -1 := by omega
      constructor <;> omega
  · have hb2 : 2 ≤ b.natAbs := by omega
    have : (a.natAbs).div (b.natAbs) ≤ a.natAbs / 2 := by
      show a.natAbs / b.natAbs ≤ a.natAbs / 2
      exact Nat.div_le_div_left hb2 (by norm_num)
    omega

theorem division_sound (vars : Env) (t : Term) (f : Factor) (a b : Int)
    (pre post : List Char) (p : Parser)
    (ha : t.value vars = some a) (hb : f.value vars = some b)
    (hwt : t.wellFormed = true) (hwf : f.wellFormed = true)
    (hra : INT_MIN ≤ a ∧ a ≤ INT_MAX) (hb0 : b ≠ 0) (hex : ¬ (a = INT_MIN ∧ b = -1))
    (hpost : stops post = true)
    (hp : stateAt pre ((t.text ++ '/' :: f.text) ++ post) = .ok p) :
    ∃ p', stateAt (pre ++ (t.text ++ '/' :: f.text)) post = .ok p' ∧
      ∃ n, ∀ m, n ≤ m → Parser.expr m vars p
        = .ok (Int.sign a * Int.sign b * ((a.natAbs / b.natAbs : Nat) : Int), p') := by
  have hr := tdiv_range a b hra hb0 hex
  have hv : (Expr.term (Term.div t f)).value vars = some (Int.tdiv a b) := by
    simp only [Expr.value, Term.value, ha, hb, Option.bind, if_neg hb0, inRange]
    unfold INT_MIN INT_MAX at hr
    rw [if_pos hr]
  have hw : (Expr.term (Term.div t f)).wellFormed = true := by
    simp only [Expr.wellFormed, Term.wellFormed, hwt, hwf, Bool.and_self]
  rw [← tdiv_eq_sign]
  exact expr_sound_stops vars (Expr.term (Term.div t f)) (Int.tdiv a b) pre post p hv hw hpost hp

theorem assignment_sound (vars : Env) (n : List Char) (e : Expr) (v : Int)
    (pre post : List Char) (p : Parser)
    (hn : isIdentifier n = true) (hv : e.value vars = some v) (hwf : e.wellFormed = true)
    (hpost : stops post = true)
    (hp : stateAt pre (n ++ '=' :: (e.text ++ post)) = .ok p) :
    ∃ p', stateAt (pre ++ n ++ '=' :: e.text) post = .ok p' ∧
      (∃ N, ∀ m, N ≤ m → Parser.statement m vars p = .ok (vars.set n v, p')) ∧
      (vars.set n v).find n = some v ∧
      ∀ k, k ≠ n → (vars.set n v).find k = vars.find k := by
  obtain ⟨p0, hp0, htok, heat⟩ := stateAt_ident pre n ('=' :: (e.text ++ post)) hn
    (by
      intro c hc
      simp only [List.head?_cons, Option.mem_def, Option.some.injEq] at hc
      subst hc
      decide)
  have hpp : p0 = p := by
    rw [hp0] at hp
    injection hp
  subst hpp
  obtain ⟨q, hq, hqtok, hqeat⟩ :=
    stateAt_punct (pre ++ n) (e.text ++ post) '=' TokenType.ASSIGN (by decide)
  obtain ⟨p1, hp1⟩ : ∃ p1, stateAt (pre ++ n ++ ['=']) (e.text ++ post) = .ok p1 := by
    obtain ⟨a, _, ha, _⟩ :=
      expr_sound vars e v (pre ++ n ++ ['=']) post hv hwf (stops_endsTerm post hpost)
    exact ⟨a, ha⟩
  obtain ⟨p', hp', N, hN⟩ :=
    expr_sound_stops vars e v (pre ++ n ++ ['=']) post p1 hv hwf hpost hp1
  have e1 : pre ++ n ++ '=' :: e.text = pre ++ n ++ ['='] ++ e.text := by simp
  rw [e1]
  refine ⟨p', hp', ⟨N, fun m hm => ?_⟩, Env.find_set_same vars n v,
    fun k hk => Env.find_set_other vars n k v hk⟩
  have hne1 : TokenType.VARIABLE ≠ TokenType.IF := by decide
  have hne2 : TokenType.VARIABLE ≠ TokenType.WHILE := by decide
  have hne3 : TokenType.VARIABLE ≠ TokenType.FUNCTION := by decide
  simp only [Parser.statement, htok, if_neg hne1, if_neg hne2, if_neg hne3, if_true, heat, hq,
    Result.bind, hqtok, hqeat, hp1, hN m hm]

/-! ## Claims -/

set_option maxHeartbeats 2000000

/-- C1: for every store and every arithmetic expression of the grammar whose
reference value exists (names bound, no zero divisor, every literal and
intermediate value in the signed 32-bit range), written without white space
and followed by a text that lets it stop, `Parser::expr` started on its first
token returns the reference value, for every sufficient fuel, and leaves the
evaluator on the first token after the expression. -/
theorem expr_correct (vars : Env) (e : Expr) (v : Int) (pre post : List Char) (p : Parser)
    (hv : e.value vars = some v) (hwf : e.wellFormed = true) (hpost : stops post = true)
    (hp : stateAt pre (e.text ++ post) = .ok p) :
    ∃ p', stateAt (pre ++ e.text) post = .ok p' ∧
      ∃ n, ∀ m, n ≤ m → Parser.expr m vars p = .ok (v, p') :=
  expr_sound_stops vars e v pre post p hv hwf hpost hp

/-- C1, instance: the text `(a+3)*2-8/3` after `x=`, with `a` bound to 5, has
the value 14. -/
theorem expr_correct_witness :
    sampleExpr.text = "(a+3)*2-8/3".toList ∧
    sampleExpr.value [("a".toList, 5)] = some 14 ∧ sampleExpr.wellFormed = true ∧
    stops [] = true ∧ stateAt "x=".toList (sampleExpr.text ++ []) = .ok sampleState ∧
    ∃ p', stateAt ("x=".toList ++ sampleExpr.text) [] = .ok p' ∧
      ∃ n, ∀ m, n ≤ m → Parser.expr m [("a".toList, 5)] sampleState = .ok (14, p') :=
  ⟨by decide, by decide, by decide, by decide, by decide,
    expr_correct [("a".toList, 5)] sampleExpr 14 "x=".toList [] sampleState
      (by decide) (by decide) (by decide) (by decide)⟩

/-- C2, as stated: on the text `x = 3 + 4 * 2` with the spaces shown no run
succeeds, whatever the fuel.  The run as `main` performs it stops with
"Unexpected token" (the constructor leaves the scanner at cursor 0, so `x` is
scanned twice and `eat(ASSIGN)` meets it); started with the scanner just past
the first token, `Parser::parse` stops with "Invalid character" at the space. -/
theorem spaced_assignment_fails :
    (∀ fuel vars, run fuel "x = 3 + 4 * 2".toList [] ≠ .ok vars) ∧
    (∀ fuel vars, parseFrom fuel "x = 3 + 4 * 2".toList [] ≠ .ok vars) ∧
    run 20 "x = 3 + 4 * 2".toList [] = .error Error.UnexpectedToken ∧
    parseFrom 20 "x = 3 + 4 * 2".toList [] = .error Error.InvalidCharacter := by
  have h1 : run 20 "x = 3 + 4 * 2".toList [] = .error Error.UnexpectedToken := by decide
  have h2 : parseFrom 20 "x = 3 + 4 * 2".toList [] = .error Error.InvalidCharacter := by
    decide
  refine ⟨?_, ?_, h1, h2⟩
  · intro fuel vars h
    rcases Result.le_cases (fun n m hnm => run_mono hnm "x = 3 + 4 * 2".toList [])
      h1 (by simp) fuel with h3 | h3 <;> rw [h3] at h <;> cases h
  · intro fuel vars h
    rcases Result.le_cases (fun n m hnm => parseFrom_mono hnm "x = 3 + 4 * 2".toList [])
      h2 (by simp) fuel with h3 | h3 <;> rw [h3] at h <;> cases h

/-- C2, amended: on the text `x=3+4*2`, written without spaces, `Parser::parse`
started on the empty store with the first token as lookahead and the scanner
just past it succeeds, for every sufficient fuel, and the store is then
exactly `x = 11`. -/
theorem unspaced_assignment_eleven :
    ∃ n, ∀ m, n ≤ m → parseFrom m "x=3+4*2".toList [] = .ok [("x".toList, 11)] := by
  have h : parseFrom 20 "x=3+4*2".toList [] = .ok [("x".toList, 11)] := by decide
  exact ⟨20, fun m hm => Result.le_ok (parseFrom_mono hm _ _) h⟩

/-- C3: for every store, name `n` and right-hand expression whose reference
value is `v`, `Parser::statement` on the text `n=e` returns, for every
sufficient fuel, the store with `n` set to `v`: looking `n` up gives `v`
whether or not `n` was bound before, and every other name is looked up as
before; the evaluator is left on the first token after the statement. -/
theorem assignment_correct (vars : Env) (n : List Char) (e : Expr) (v : Int)
    (pre post : List Char) (p : Parser)
    (hn : isIdentifier n = true) (hv : e.value vars = some v) (hwf : e.wellFormed = true)
    (hpost : stops post = true)
    (hp : stateAt pre (n ++ '=' :: (e.text ++ post)) = .ok p) :
    ∃ p', stateAt (pre ++ n ++ '=' :: e.text) post = .ok p' ∧
      (∃ N, ∀ m, N ≤ m → Parser.statement m vars p = .ok (vars.set n v, p')) ∧
      (vars.set n v).find n = some v ∧
      ∀ k, k ≠ n → (vars.set n v).find k = vars.find k :=
  assignment_sound vars n e v pre post p hn hv hwf hpost hp

/-- C3, instance: `a=(a+3)*2-8/3` on the store `a = 5, b = 1` sets `a` to 14
and leaves `b`. -/
theorem assignment_correct_witness :
    isIdentifier "a".toList = true ∧
    sampleExpr.value [("a".toList, 5), ("b".toList, 1)] = some 14 ∧
    sampleExpr.wellFormed = true ∧ stops [] = true ∧
    stateAt [] ("a".toList ++ '=' :: (sampleExpr.text ++ []))
      = .ok { lexer := { input := "a=(a+3)*2-8/3".toList, position := 1 },
              currentToken := ⟨TokenType.VARIABLE, "a".toList⟩ } ∧
    ∃ p', stateAt ([] ++ "a".toList ++ '=' :: sampleExpr.text) [] = .ok p' ∧
      (∃ N, ∀ m, N ≤ m →
        Parser.statement m [("a".toList, 5), ("b".toList, 1)]
          { lexer := { input := "a=(a+3)*2-8/3".toList, position := 1 },
            currentToken := ⟨TokenType.VARIABLE, "a".toList⟩ }
          = .ok (Env.set [("a".toList, 5), ("b".toList, 1)] "a".toList 14, p')) ∧
      (Env.set [("a".toList, 5), ("b".toList, 1)] "a".toList 14).find "a".toList = some 14 ∧
      ∀ k, k ≠ "a".toList →
        (Env.set [("a".toList, 5), ("b".toList, 1)] "a".toList 14).find k
          = Env.find [("a".toList, 5), ("b".toList, 1)] k :=
  ⟨by decide, by decide, by decide, by decide, by decide,
    assignment_correct [("a".toList, 5), ("b".toList, 1)] "a".toList sampleExpr 14 [] []
      { lexer := { input := "a=(a+3)*2-8/3".toList, position := 1 },
        currentToken := ⟨TokenType.VARIABLE, "a".toList⟩ }
      (by decide) (by decide) (by decide) (by decide) (by decide)⟩

/-- C4, as stated: on the text `z#`, with `z` unbound and `z` as lookahead,
`Parser::factor` never fails with "Undefined variable": `eat(VARIABLE)` scans
the next token before the lookup and stops with "Invalid character". -/
theorem factor_unbound_invalid_character :
    Env.find [] "z".toList = none ∧
    stateAt [] "z#".toList
      = .ok { lexer := { input := "z#".toList, position := 1 },
              currentToken := ⟨TokenType.VARIABLE, "z".toList⟩ } ∧
    Parser.factor 1 []
        { lexer := { input := "z#".toList, position := 1 },
          currentToken := ⟨TokenType.VARIABLE, "z".toList⟩ }
      = .error Error.InvalidCharacter ∧
    ∀ fuel, Parser.factor fuel []
        { lexer := { input := "z#".toList, position := 1 },
          currentToken := ⟨TokenType.VARIABLE, "z".toList⟩ }
      ≠ .error Error.UndefinedVariable := by
  refine ⟨by decide, by decide, by decide, ?_⟩
  intro fuel
  cases fuel with
  | zero => simp [Parser.factor]
  | succ k =>
    rcases factor_unbound_cases k []
      { lexer := { input := "z#".toList, position := 1 },
        currentToken := ⟨TokenType.VARIABLE, "z".toList⟩ } "z".toList rfl (by decide)
      with ⟨⟨t, l, h⟩, _⟩ | ⟨_, h⟩
    · have hinv : Lexer.getNextToken { input := "z#".toList, position := 1 }
          = .error Error.InvalidCharacter := by decide
      rw [hinv] at h
      cases h
    · rw [h]
      simp

/-- C4, amended: for every store and every name `n` not bound in it,
`Parser::factor` with the identifier `n` as lookahead fails, whatever the fuel
left: with "Undefined variable" when the token after the identifier scans,
and with "Invalid character" when it does not, since the identifier is eaten
before the lookup. -/
theorem factor_unbound (fuel : Nat) (vars : Env) (p : Parser) (n : List Char)
    (htok : p.currentToken = ⟨TokenType.VARIABLE, n⟩) (hn : vars.find n = none) :
    ((∃ t l, p.lexer.getNextToken = .ok (t, l)) ∧
        Parser.factor (fuel + 1) vars p = .error Error.UndefinedVariable) ∨
      (p.lexer.getNextToken = .error Error.InvalidCharacter ∧
        Parser.factor (fuel + 1) vars p = .error Error.InvalidCharacter) :=
  factor_unbound_cases fuel vars p n htok hn

/-- C4, instance: `z` unbound in the store `a = 5`, on the text `z+1`. -/
theorem factor_unbound_witness :
    (⟨TokenType.VARIABLE, "z".toList⟩ : Token) = ⟨TokenType.VARIABLE, "z".toList⟩ ∧
    Env.find [("a".toList, 5)] "z".toList = none ∧
    (((∃ t l, Lexer.getNextToken { input := "z+1".toList, position := 1 } = .ok (t, l)) ∧
        Parser.factor (0 + 1) [("a".toList, 5)]
            { lexer := { input := "z+1".toList, position := 1 },
              currentToken := ⟨TokenType.VARIABLE, "z".toList⟩ }
          = .error Error.UndefinedVariable) ∨
      (Lexer.getNextToken { input := "z+1".toList, position := 1 }
          = .error Error.InvalidCharacter ∧
        Parser.factor (0 + 1) [("a".toList, 5)]
            { lexer := { input := "z+1".toList, position := 1 },
              currentToken := ⟨TokenType.VARIABLE, "z".toList⟩ }
          = .error Error.InvalidCharacter)) :=
  ⟨rfl, by decide,
    factor_unbound 0 [("a".toList, 5)]
      { lexer := { input := "z+1".toList, position := 1 },
        currentToken := ⟨TokenType.VARIABLE, "z".toList⟩ } "z".toList rfl (by decide)⟩

/-- C5: for every source text and every cursor inside it whose character is
not a digit, a letter, an underscore or one of `+ - * / ( ) = ,`,
`Lexer::getNextToken` fails with "Invalid character": it returns no token and
does not move on to the characters that follow. -/
theorem getNextToken_invalid (l : Lexer) (c : Char)
    (hc : l.input[l.position]? = some c)
    (hd : c.isDigit = false) (ha : c.isAlpha = false) (_hu : c ≠ '_')
    (hp : c ∉ ['+', '-', '*', '/', '(', ')', '=', ',']) :
    l.getNextToken = .error Error.InvalidCharacter := by
  obtain ⟨hlt, hget⟩ := List.getElem?_eq_some.mp hc
  have hdrop : l.input.drop l.position = c :: l.input.drop (l.position + 1) := by
    rw [List.drop_eq_getElem_cons hlt, hget]
  simp only [List.mem_cons, List.mem_singleton, List.not_mem_nil, or_false, not_or] at hp
  obtain ⟨h1, h2, h3, h4, h5, h6, h7, h8⟩ := hp
  simp only [Lexer.getNextToken, hdrop, hd, ha, Bool.false_eq_true, if_false, if_neg h1,
    if_neg h2, if_neg h3, if_neg h4, if_neg h5, if_neg h6, if_neg h7, if_neg h8]

/-- C5, instance: the space at index 1 of `x = 1`. -/
theorem getNextToken_invalid_witness :
    ("x = 1".toList)[1]? = some ' ' ∧ (' ').isDigit = false ∧ (' ').isAlpha = false ∧
    ' ' ≠ '_' ∧ ' ' ∉ ['+', '-', '*', '/', '(', ')', '=', ','] ∧
    Lexer.getNextToken { input := "x = 1".toList, position := 1 }
      = .error Error.InvalidCharacter :=
  ⟨by decide, by decide, by decide, by decide, by decide,
    getNextToken_invalid { input := "x = 1".toList, position := 1 } ' '
      (by decide) (by decide) (by decide) (by decide) (by decide)⟩

/-- C6, as stated: the program `while(1)x=5`, whose guard is the constant 1,
does terminate: the run stops with "Unexpected token", both as `main` performs
it and when `Parser::parse` starts with the scanner just past the first
token; so does the spaced text `while (1) x = 5` (there the second start stops
with "Invalid character" at the space). -/
theorem while_one_terminates :
    run 20 "while(1)x=5".toList [] = .error Error.UnexpectedToken ∧
    parseFrom 20 "while(1)x=5".toList [] = .error Error.UnexpectedToken ∧
    run 20 "while (1) x = 5".toList [] = .error Error.UnexpectedToken ∧
    parseFrom 20 "while (1) x = 5".toList [] = .error Error.InvalidCharacter ∧
    ¬ (∀ fuel, run fuel "while(1)x=5".toList [] = .outOfFuel) := by
  refine ⟨by decide, by decide, by decide, by decide, ?_⟩
  intro h
  have h1 : run 20 "while(1)x=5".toList [] = .error Error.UnexpectedToken := by decide
  rw [h 20] at h1
  cases h1

/-- C6, amended: for every store and every program text `while(E)B` whose
guard has a non-zero reference value, `Parser::parse` started on the first
token terminates with an error, the same for every sufficient fuel, and never
yields a store: "Unexpected token" when `eat(WHILE)` meets the END token after
the body is skipped, or "Invalid character" when a character of the body does
not scan. -/
theorem while_nonzero_terminates (vars : Env) (e : Expr) (v : Int) (body : List Char)
    (hv : e.value vars = some v) (hv0 : v ≠ 0) (hwf : e.wellFormed = true) :
    ∃ err, (err = Error.UnexpectedToken ∨ err = Error.InvalidCharacter) ∧
      ∃ N, ∀ m, N ≤ m →
        parseFrom m ("while(".toList ++ e.text ++ ')' :: body) vars = .error err :=
  while_nonzero_outcome vars e v body hv hv0 hwf

/-- C6, instance: the guard `1` and the body `x=5`. -/
theorem while_nonzero_terminates_witness :
    guardOne.value [] = some 1 ∧ (1 : Int) ≠ 0 ∧ guardOne.wellFormed = true ∧
    ∃ err, (err = Error.UnexpectedToken ∨ err = Error.InvalidCharacter) ∧
      ∃ N, ∀ m, N ≤ m →
        parseFrom m ("while(".toList ++ guardOne.text ++ ')' :: "x=5".toList) []
          = .error err :=
  ⟨by decide, by decide, by decide,
    while_nonzero_terminates [] guardOne 1 "x=5".toList (by decide) (by decide) (by decide)⟩

/-- C7, the code at the failing input `while(0)x=5`: with the guard zero the
while branch returns right after the guard and `Parser::parse` then executes
the body as a statement, so `x` becomes 5; a whole run of `0while(0)x=5` shows
the same.  (A whole run of `while(0)x=5` stops earlier with "Unexpected
token", the constructor having left the scanner at cursor 0.) -/
theorem while_zero_executes_body :
    parseFrom 20 "while(0)x=5".toList [] = .ok [("x".toList, 5)] ∧
    run 20 "0while(0)x=5".toList [] = .ok [("x".toList, 5)] ∧
    run 20 "while(0)x=5".toList [] = .error Error.UnexpectedToken := by
  refine ⟨by decide, by decide, by decide⟩

/-- C8, the code at the failing input `if(1)2else(3)`: with a non-zero guard
the if branch stops skipping at `else` and leaves it as lookahead, which no
statement accepts, so the run stops with "Unexpected token"; with the guard
zero the same text is consumed to the end.  A whole run of either text stops
with "Unexpected token" at `eat(LPAREN)`, the first token being scanned
twice. -/
theorem if_nonzero_else_fails :
    parseFrom 20 "if(1)2else(3)".toList [] = .error Error.UnexpectedToken ∧
    run 20 "0if(1)2else(3)".toList [] = .error Error.UnexpectedToken ∧
    parseFrom 20 "if(0)2else(3)".toList [] = .ok [] ∧
    run 20 "0if(0)2else(3)".toList [] = .ok [] ∧
    run 20 "if(1)2else(3)".toList [] = .error Error.UnexpectedToken ∧
    run 20 "if(0)2else(3)".toList [] = .error Error.UnexpectedToken := by
  refine ⟨by decide, by decide, by decide, by decide, by decide, by decide⟩

/-- C9, the code at the failing inputs: `function f(a, b) a + b` on the empty
store stops with "Unexpected token" (or "Invalid character" at the space when
the scanner starts just past the first token), not "Undefined variable"; and
`function f(a,b)1` stores nothing, although its expression has the value 1.
Written without the space, `functionf(a,b)1` is scanned as the name
`functionf`. -/
theorem function_definition_fails :
    run 20 "function f(a, b) a + b".toList [] = .error Error.UnexpectedToken ∧
    parseFrom 20 "function f(a, b) a + b".toList [] = .error Error.InvalidCharacter ∧
    run 20 "function f(a,b)1".toList [] = .error Error.UnexpectedToken ∧
    parseFrom 20 "function f(a,b)1".toList [] = .error Error.InvalidCharacter ∧
    run 20 "functionf(a,b)1".toList [] = .error Error.UnexpectedToken ∧
    parseFrom 20 "functionf(a,b)1".toList [] = .error Error.UnexpectedToken := by
  refine ⟨by decide, by decide, by decide, by decide, by decide, by decide⟩

/-- C10, the code at the failing inputs `1/0` and `a/b` with `b` bound to 0:
`Parser::expr` reaches the division of line 149 with a zero divisor; nothing is
thrown there, the behaviour is undefined.  The whole run of the program `1/0`
ends the same way, and so does the assignment `x=1/0`. -/
theorem division_by_zero_unguarded :
    (∃ p, stateAt [] "1/0".toList = .ok p ∧
      Parser.expr 20 [] p = .error Error.UndefinedBehaviour) ∧
    (∃ p, stateAt [] "a/b".toList = .ok p ∧
      Parser.expr 20 [("a".toList, 1), ("b".toList, 0)] p
        = .error Error.UndefinedBehaviour) ∧
    run 20 "1/0".toList [] = .error Error.UndefinedBehaviour ∧
    parseFrom 20 "x=1/0".toList [] = .error Error.UndefinedBehaviour ∧
    divInt 1 0 = .error Error.UndefinedBehaviour := by
  refine ⟨⟨_, rfl, by decide⟩, ⟨_, rfl, by decide⟩, by decide, by decide, by decide⟩

/-- C11: for all 32-bit integers `a` and `b` with `b ≠ 0`, other than
`a = -2^31` with `b = -1`, supplied as the values of a term and a factor
(bound names or sub-expressions), `Parser::expr` on the text `t/f` returns the
quotient rounded toward zero: its sign is the product of the signs and its
magnitude is the natural quotient of the magnitudes. -/
theorem division_truncates (vars : Env) (t : Term) (f : Factor) (a b : Int)
    (pre post : List Char) (p : Parser)
    (ha : t.value vars = some a) (hb : f.value vars = some b)
    (hwt : t.wellFormed = true) (hwf : f.wellFormed = true)
    (hra : INT_MIN ≤ a ∧ a ≤ INT_MAX) (hb0 : b ≠ 0) (hex : ¬ (a = INT_MIN ∧ b = -1))
    (hpost : stops post = true)
    (hp : stateAt pre ((t.text ++ '/' :: f.text) ++ post) = .ok p) :
    ∃ p', stateAt (pre ++ (t.text ++ '/' :: f.text)) post = .ok p' ∧
      ∃ n, ∀ m, n ≤ m → Parser.expr m vars p
        = .ok (Int.sign a * Int.sign b * ((a.natAbs / b.natAbs : Nat) : Int), p') :=
  division_sound vars t f a b pre post p ha hb hwt hwf hra hb0 hex hpost hp

/-- C11, instance: `(0-7)/2` gives -3, not the floor -4 (and `10/3` gives 3). -/
theorem division_truncates_witness :
    sampleDividend.value [] = some (-7) ∧ (Factor.num ['2']).value [] = some 2 ∧
    sampleDividend.wellFormed = true ∧ (Factor.num ['2']).wellFormed = true ∧
    (INT_MIN ≤ (-7 : Int) ∧ (-7 : Int) ≤ INT_MAX) ∧ (2 : Int) ≠ 0 ∧
    ¬ ((-7 : Int) = INT_MIN ∧ (2 : Int) = -1) ∧ stops [] = true ∧
    stateAt [] ((sampleDividend.text ++ '/' :: (Factor.num ['2']).text) ++ [])
      = .ok { lexer := { input := "(0-7)/2".toList, position := 1 },
              currentToken := ⟨TokenType.LPAREN, ['(']⟩ } ∧
    Int.sign (-7) * Int.sign 2 * (((-7 : Int).natAbs / (2 : Int).natAbs : Nat) : Int) = -3 ∧
    parseFrom 20 "x=(0-7)/2".toList [] = .ok [("x".toList, -3)] ∧
    parseFrom 20 "x=10/3".toList [] = .ok [("x".toList, 3)] ∧
    ∃ p', stateAt ([] ++ (sampleDividend.text ++ '/' :: (Factor.num ['2']).text)) []
        = .ok p' ∧
      ∃ n, ∀ m, n ≤ m →
        Parser.expr m []
            { lexer := { input := "(0-7)/2".toList, position := 1 },
              currentToken := ⟨TokenType.LPAREN, ['(']⟩ }
          = .ok (Int.sign (-7) * Int.sign 2
              * (((-7 : Int).natAbs / (2 : Int).natAbs : Nat) : Int), p') :=
  ⟨by decide, by decide, by decide, by decide, by decide, by decide, by decide, by decide,
    by decide, by decide, by decide, by decide,
    division_truncates [] sampleDividend (Factor.num ['2']) (-7) 2 [] []
      { lexer := { input := "(0-7)/2".toList, position := 1 },
        currentToken := ⟨TokenType.LPAREN, ['(']⟩ }
      (by decide) (by decide) (by decide) (by decide) (by decide) (by decide) (by decide)
      (by decide) (by decide)⟩

/-! ## The scanner, token by token -/

theorem head_dropWhile_false (p : Char → Bool) (s : List Char) :
    ∀ c ∈ (s.dropWhile p).head?, p c = false := by
  induction s with
  | nil => simp
  | cons d ds ih =>
    by_cases hd : p d = true
    · simpa [List.dropWhile_cons, hd] using ih
    · intro c hc
      simp only [List.dropWhile_cons, hd, Bool.false_eq_true, if_false, List.head?_cons,
        Option.mem_def, Option.some.injEq] at hc
      subst hc
      simpa using hd

theorem run_split (p : Char → Bool) (input : List Char) (pos : Nat) (s : List Char)
    (hd : input.drop pos = s) :
    input.drop pos = s.takeWhile p ++ input.drop (pos + (s.takeWhile p).length) ∧
      ∀ c ∈ (input.drop (pos + (s.takeWhile p).length)).head?, p c = false := by
  have h1 : input.drop (pos + (s.takeWhile p).length) = s.dropWhile p := by
    rw [← List.drop_drop, hd]
    have h2 := List.drop_left (s.takeWhile p) (s.dropWhile p)
    rwa [List.takeWhile_append_dropWhile] at h2
  rw [h1, hd]
  exact ⟨(List.takeWhile_append_dropWhile p s).symm, head_dropWhile_false p s⟩

theorem classify_value (x : List Char) : (classify x).value = x := by
  unfold classify
  split_ifs with h1 h2 h3 h4
  · exact h1.symm
  · exact h2.symm
  · exact h3.symm
  · exact h4.symm
  · rfl

theorem getNextToken_spec (l : Lexer) (t : Token) (l1 : Lexer)
    (h : l.getNextToken = .ok (t, l1)) :
    l1.input = l.input ∧
    ((l.input.length ≤ l.position ∧ t = ⟨TokenType.END, []⟩ ∧ l1 = l) ∨
      (l.input.drop l.position = t.value ++ l.input.drop l1.position ∧
        l1.position = l.position + t.value.length ∧ t.value ≠ [] ∧
        ((t.type = TokenType.NUMBER ∧ t.value.all Char.isDigit = true ∧
            ∀ c ∈ (l.input.drop l1.position).head?, c.isDigit = false) ∨
          (isWord t.value = true ∧ t = classify t.value ∧
            ∀ c ∈ (l.input.drop l1.position).head?, isIdentChar c = false) ∨
          (∃ c, (c, t.type) ∈ punctuation ∧ t.value = [c])))) := by
  unfold Lexer.getNextToken at h
  cases hd : l.input.drop l.position with
  | nil =>
    rw [hd] at h
    simp only [Result.ok.injEq, Prod.mk.injEq] at h
    obtain ⟨rfl, rfl⟩ := h
    exact ⟨rfl, Or.inl ⟨List.drop_eq_nil_iff.mp hd, rfl, rfl⟩⟩
  | cons c rest =>
    rw [hd] at h
    dsimp only at h
    have hpunct : ∀ ty, (c, ty) ∈ punctuation →
        Result.ok ((⟨ty, [c]⟩ : Token), ({ l with position := l.position + 1 } : Lexer))
          = Result.ok (t, l1) →
        l1.input = l.input ∧
        ((l.input.length ≤ l.position ∧ t = ⟨TokenType.END, []⟩ ∧ l1 = l) ∨
          (c :: rest = t.value ++ l.input.drop l1.position ∧
            l1.position = l.position + t.value.length ∧ t.value ≠ [] ∧
            ((t.type = TokenType.NUMBER ∧ t.value.all Char.isDigit = true ∧
                ∀ c ∈ (l.input.drop l1.position).head?, c.isDigit = false) ∨
              (isWord t.value = true ∧ t = classify t.value ∧
                ∀ c ∈ (l.input.drop l1.position).head?, isIdentChar c = false) ∨
              (∃ c, (c, t.type) ∈ punctuation ∧ t.value = [c])))) := by
      intro ty hty heq
      simp only [Result.ok.injEq, Prod.mk.injEq] at heq
      obtain ⟨rfl, rfl⟩ := heq
      refine ⟨rfl, Or.inr ⟨?_, rfl, by simp, Or.inr (Or.inr ⟨c, hty, rfl⟩)⟩⟩
      show c :: rest = [c] ++ l.input.drop (l.position + 1)
      rw [← List.drop_drop, hd]
      rfl
    by_cases h1 : c.isDigit = true
    · rw [if_pos h1] at h
      simp only [Result.ok.injEq, Prod.mk.injEq, scanRun_eq, List.nil_append] at h
      obtain ⟨rfl, rfl⟩ := h
      obtain ⟨hs1, hs2⟩ := run_split Char.isDigit l.input l.position (c :: rest) hd
      rw [hd] at hs1
      refine ⟨rfl, Or.inr ⟨hs1, rfl, ?_, Or.inl ⟨rfl, List.all_takeWhile, hs2⟩⟩⟩
      simp [List.takeWhile_cons, h1]
    rw [if_neg h1] at h
    by_cases h2 : c.isAlpha = true
    · rw [if_pos h2] at h
      simp only [Result.ok.injEq, Prod.mk.injEq, scanRun_eq, List.nil_append] at h
      obtain ⟨rfl, rfl⟩ := h
      obtain ⟨hs1, hs2⟩ := run_split isIdentChar l.input l.position (c :: rest) hd
      rw [hd] at hs1
      have hic : isIdentChar c = true := by simp [isIdentChar, Char.isAlphanum, h2]
      have hword : isWord ((c :: rest).takeWhile isIdentChar) = true := by
        have hall : ((c :: rest).takeWhile isIdentChar).all isIdentChar = true :=
          List.all_takeWhile
        simp only [List.takeWhile_cons, hic, if_true] at hall ⊢
        simp only [List.all_cons, Bool.and_eq_true] at hall
        simp only [isWord, h2, Bool.true_and]
        exact hall.2
      refine ⟨rfl, Or.inr ⟨?_, ?_, ?_, Or.inr (Or.inl ⟨?_, ?_, hs2⟩)⟩⟩
      · rw [classify_value]; exact hs1
      · rw [classify_value]
      · rw [classify_value]; simp [List.takeWhile_cons, hic]
      · rw [classify_value]; exact hword
      · rw [classify_value]
    rw [if_neg h2] at h
    by_cases h3 : c = '+'
    · rw [if_pos h3] at h; subst h3; exact hpunct _ (by decide) h
    rw [if_neg h3] at h
    by_cases h4 : c = '-'
    · rw [if_pos h4] at h; subst h4; exact hpunct _ (by decide) h
    rw [if_neg h4] at h
    by_cases h5 : c = '*'
    · rw [if_pos h5] at h; subst h5; exact hpunct _ (by decide) h
    rw [if_neg h5] at h
    by_cases h6 : c = '/'
    · rw [if_pos h6] at h; subst h6; exact hpunct _ (by decide) h
    rw [if_neg h6] at h
    by_cases h7 : c = '('
    · rw [if_pos h7] at h; subst h7; exact hpunct _ (by decide) h
    rw [if_neg h7] at h
    by_cases h8 : c = ')'
    · rw [if_pos h8] at h; subst h8; exact hpunct _ (by decide) h
    rw [if_neg h8] at h
    by_cases h9 : c = '='
    · rw [if_pos h9] at h; subst h9; exact hpunct _ (by decide) h
    rw [if_neg h9] at h
    by_cases h10 : c = ','
    · rw [if_pos h10] at h; subst h10; exact hpunct _ (by decide) h
    rw [if_neg h10] at h
    cases h


theorem getNextToken_at_end (l : Lexer) (h : l.position = l.input.length) :
    l.getNextToken = .ok (⟨TokenType.END, []⟩, l) :=
  getNextToken_end l (List.drop_eq_nil_iff.mpr (by omega))

theorem getTokens_at_end (l : Lexer) (h : l.position = l.input.length) (n : Nat) :
    l.getTokens n = .ok (List.replicate n ⟨TokenType.END, []⟩, l) := by
  induction n with
  | zero => rfl
  | succ n ih =>
    simp only [Lexer.getTokens, getNextToken_at_end l h, Result.bind, ih, List.replicate_succ]

theorem getNextToken_nonEnd (l : Lexer) (t : Token) (l1 : Lexer)
    (h : l.getNextToken = .ok (t, l1)) (hne : t.type ≠ TokenType.END) :
    l1.input = l.input ∧ t.value ≠ [] ∧ l1.position = l.position + t.value.length ∧
      l.input.drop l.position = t.value ++ l.input.drop l1.position := by
  obtain ⟨h1, h2⟩ := getNextToken_spec l t l1 h
  rcases h2 with ⟨_, ht, _⟩ | ⟨h3, h4, h5, _⟩
  · rw [ht] at hne
    exact absurd rfl hne
  · exact ⟨h1, h5, h4, h3⟩

theorem scanAll_text (fuel : Nat) : ∀ (l : Lexer) (ts : List Token),
    l.scanAll fuel = .ok ts → (ts.map Token.value).flatten = l.input.drop l.position := by
  induction fuel with
  | zero =>
    intro l ts h
    simp [Lexer.scanAll] at h
  | succ fuel ih =>
    intro l ts h
    rcases getNextToken_ok_or_invalid l with ⟨t, l1, hg⟩ | hg
    · simp only [Lexer.scanAll, hg, Result.bind] at h
      by_cases hend : t.type = TokenType.END
      · rw [if_pos hend] at h
        simp only [Result.ok.injEq] at h
        subst h
        obtain ⟨_, hcase⟩ := getNextToken_progress l t l1 hg
        rcases hcase with ⟨hlen, ht, _⟩ | ⟨_, _, hne⟩
        · rw [List.drop_eq_nil_iff.mpr hlen, ht]
          rfl
        · exact absurd hend hne
      · rw [if_neg hend] at h
        obtain ⟨hin, _, _, htext⟩ := getNextToken_nonEnd l t l1 hg hend
        cases hrest : l1.scanAll fuel with
        | ok ts1 =>
          rw [hrest] at h
          simp only [Result.ok.injEq] at h
          subst h
          have := ih l1 ts1 hrest
          rw [hin] at this
          simp only [List.map_cons, List.flatten_cons, this, htext]
        | error e => rw [hrest] at h; cases h
        | outOfFuel => rw [hrest] at h; cases h
    · simp [Lexer.scanAll, hg, Result.bind] at h

theorem scanAll_source (fuel : Nat) (input : List Char) (ts : List Token)
    (h : Lexer.scanAll fuel { input := input, position := 0 } = .ok ts) :
    (ts.map Token.value).flatten = input ∧
      ∀ (l : Lexer) (t : Token) (l1 : Lexer), l.getNextToken = .ok (t, l1) →
        t.type ≠ TokenType.END →
        t.value ≠ [] ∧ l1.position = l.position + t.value.length ∧ l1.input = l.input := by
  refine ⟨by simpa using scanAll_text fuel _ ts h, ?_⟩
  intro l t l1 hg hne
  obtain ⟨h1, h2, h3, _⟩ := getNextToken_nonEnd l t l1 hg hne
  exact ⟨h2, h3, h1⟩

theorem word_classified (l : Lexer) (x post : List Char)
    (hx : isWord x = true) (hpost : ∀ c ∈ post.head?, isIdentChar c = false)
    (h : l.input.drop l.position = x ++ post) :
    ∃ t, l.getNextToken = .ok (t, { l with position := l.position + x.length }) ∧
      t.value = x ∧
      (t.type = TokenType.IF ↔ x = "if".toList) ∧
      (t.type = TokenType.ELSE ↔ x = "else".toList) ∧
      (t.type = TokenType.WHILE ↔ x = "while".toList) ∧
      (t.type = TokenType.FUNCTION ↔ x = "function".toList) ∧
      (x ≠ "if".toList → x ≠ "else".toList → x ≠ "while".toList → x ≠ "function".toList →
        t = ⟨TokenType.VARIABLE, x⟩) := by
  refine ⟨classify x, getNextToken_word l x post hx hpost h, classify_value x, ?_⟩
  unfold classify
  by_cases h1 : x = "if".toList
  · subst h1; decide
  by_cases h2 : x = "else".toList
  · subst h2; decide
  by_cases h3 : x = "while".toList
  · subst h3; decide
  by_cases h4 : x = "function".toList
  · subst h4; decide
  rw [if_neg h1, if_neg h2, if_neg h3, if_neg h4]
  have hv : ∀ ty : TokenType, ty ≠ TokenType.VARIABLE →
      ((⟨TokenType.VARIABLE, x⟩ : Token).type = ty ↔ False) :=
    fun ty hty => ⟨fun h => hty h.symm, False.elim⟩
  refine ⟨?_, ?_, ?_, ?_, fun _ _ _ _ => rfl⟩
  · rw [hv _ (by decide)]; exact ⟨False.elim, h1⟩
  · rw [hv _ (by decide)]; exact ⟨False.elim, h2⟩
  · rw [hv _ (by decide)]; exact ⟨False.elim, h3⟩
  · rw [hv _ (by decide)]; exact ⟨False.elim, h4⟩

theorem underscore_invalid (l : Lexer) (h : l.input[l.position]? = some '_') :
    l.getNextToken = .error Error.InvalidCharacter := by
  obtain ⟨hlt, hget⟩ := List.getElem?_eq_some.mp h
  have hdrop : l.input.drop l.position = '_' :: l.input.drop (l.position + 1) := by
    rw [List.drop_eq_getElem_cons hlt, hget]
  simp only [Lexer.getNextToken, hdrop]
  rfl



/-! ## Repeated assignment -/

theorem Env.set_set (vars : Env) (n : List Char) (v w : Int) :
    (vars.set n v).set n w = vars.set n w := by
  induction vars with
  | nil => simp [Env.set]
  | cons b rest ih =>
    obtain ⟨m, u⟩ := b
    by_cases h : m = n
    · simp [Env.set, h]
    · simp [Env.set, h, ih]

mutual
theorem expr_value_set (vars : Env) (n : List Char) (v : Int) : ∀ e : Expr,
    e.mentions n = false → e.value (vars.set n v) = e.value vars
  | .term t, h => by
    simp only [Expr.mentions] at h
    simp only [Expr.value, term_value_set vars n v t h]
  | .add e t, h => by
    simp only [Expr.mentions, Bool.or_eq_false_iff] at h
    simp only [Expr.value, expr_value_set vars n v e h.1, term_value_set vars n v t h.2]
  | .sub e t, h => by
    simp only [Expr.mentions, Bool.or_eq_false_iff] at h
    simp only [Expr.value, expr_value_set vars n v e h.1, term_value_set vars n v t h.2]
theorem term_value_set (vars : Env) (n : List Char) (v : Int) : ∀ t : Term,
    t.mentions n = false → t.value (vars.set n v) = t.value vars
  | .factor f, h => by
    simp only [Term.mentions] at h
    simp only [Term.value, factor_value_set vars n v f h]
  | .mul t f, h => by
    simp only [Term.mentions, Bool.or_eq_false_iff] at h
    simp only [Term.value, term_value_set vars n v t h.1, factor_value_set vars n v f h.2]
  | .div t f, h => by
    simp only [Term.mentions, Bool.or_eq_false_iff] at h
    simp only [Term.value, term_value_set vars n v t h.1, factor_value_set vars n v f h.2]
theorem factor_value_set (vars : Env) (n : List Char) (v : Int) : ∀ f : Factor,
    f.mentions n = false → f.value (vars.set n v) = f.value vars
  | .num _, _ => by simp only [Factor.value]
  | .var x, h => by
    simp only [Factor.mentions, decide_eq_false_iff_not] at h
    simp only [Factor.value]
    exact Env.find_set_other vars n x v h
  | .paren e, h => by
    simp only [Factor.mentions] at h
    simp only [Factor.value, expr_value_set vars n v e h]
end

theorem assignment_twice (vars : Env) (n : List Char) (e : Expr) (v : Int)
    (pre post : List Char) (p : Parser)
    (hn : isIdentifier n = true) (hv : e.value vars = some v) (hwf : e.wellFormed = true)
    (hfree : e.mentions n = false) (hpost : stops post = true)
    (hp : stateAt pre (n ++ '=' :: (e.text ++ post)) = .ok p) :
    ∃ p' N, ∀ m, N ≤ m →
      Parser.statement m vars p = .ok (vars.set n v, p') ∧
      Parser.statement m (vars.set n v) p = .ok (vars.set n v, p') := by
  obtain ⟨p1, hp1, ⟨N1, h1⟩, _⟩ := assignment_sound vars n e v pre post p hn hv hwf hpost hp
  have hv2 : e.value (vars.set n v) = some v := by
    rw [expr_value_set vars n v e hfree]
    exact hv
  obtain ⟨p2, hp2, ⟨N2, h2⟩, _⟩ :=
    assignment_sound (vars.set n v) n e v pre post p hn hv2 hwf hpost hp
  have hpp : p2 = p1 := by
    rw [hp2] at hp1
    injection hp1
  subst hpp
  refine ⟨p2, max N1 N2, fun m hm => ⟨h1 m (by omega), ?_⟩⟩
  rw [h2 m (by omega), Env.set_set]

/-! ## The `function` keyword -/

theorem isDigit_isIdentChar (c : Char) (h : c.isDigit = true) : isIdentChar c = true := by
  simp [isIdentChar, Char.isAlphanum, h]

theorem isAlpha_isIdentChar (c : Char) (h : c.isAlpha = true) : isIdentChar c = true := by
  simp [isIdentChar, Char.isAlphanum, h]

theorem punctuation_type (c : Char) (ty : TokenType) (h : (c, ty) ∈ punctuation) :
    ty ≠ TokenType.NUMBER ∧ ty ≠ TokenType.VARIABLE ∧ ty ≠ TokenType.IF ∧
      ty ≠ TokenType.ELSE ∧ ty ≠ TokenType.WHILE ∧ ty ≠ TokenType.FUNCTION ∧
      ty ≠ TokenType.END := by
  simp only [punctuation, List.mem_cons, Prod.mk.injEq, List.mem_singleton,
    List.not_mem_nil, or_false] at h
  rcases h with e | e | e | e | e | e | e | e
  all_goals
    obtain ⟨_, hty⟩ := e
    subst hty
    decide

/-- After a keyword or name, the next call returns END or a punctuation token,
or fails. -/
theorem after_word (l : Lexer) (t : Token) (l1 : Lexer)
    (h : l.getNextToken = .ok (t, l1))
    (ht : t.type = TokenType.FUNCTION) :
    l1.getNextToken = .error Error.InvalidCharacter ∨
      ∃ t2 l2, l1.getNextToken = .ok (t2, l2) ∧ t2.type ≠ TokenType.VARIABLE ∧
        (t2.type = TokenType.END ∨ ∃ c, (c, t2.type) ∈ punctuation) := by
  obtain ⟨hin, hcase⟩ := getNextToken_spec l t l1 h
  have hhead : ∀ c ∈ (l1.input.drop l1.position).head?, isIdentChar c = false := by
    rw [hin]
    rcases hcase with ⟨_, hte, _⟩ | ⟨_, _, _, hk⟩
    · rw [hte] at ht
      cases ht
    · rcases hk with ⟨hnum, _⟩ | ⟨_, _, hh⟩ | ⟨c, hc, _⟩
      · rw [hnum] at ht
        cases ht
      · exact hh
      · exact absurd ht (punctuation_type c _ hc).2.2.2.2.2.1
  rcases getNextToken_ok_or_invalid l1 with ⟨t2, l2, h2⟩ | h2
  · right
    obtain ⟨_, hcase2⟩ := getNextToken_spec l1 t2 l2 h2
    rcases hcase2 with ⟨_, hte, _⟩ | ⟨htext, _, hne, hk⟩
    · exact ⟨t2, l2, h2, by rw [hte]; decide, Or.inl (by rw [hte])⟩
    · obtain ⟨c0, rest0, hv0⟩ : ∃ c0 rest0, t2.value = c0 :: rest0 := by
        cases hval : t2.value with
        | nil => exact absurd hval hne
        | cons a b => exact ⟨a, b, rfl⟩
      have hc0 : isIdentChar c0 = false := by
        apply hhead c0
        rw [htext, hv0]
        simp
      rcases hk with ⟨_, hall, _⟩ | ⟨hw, _, _⟩ | ⟨c, hc, _⟩
      · rw [hv0] at hall
        simp only [List.all_cons, Bool.and_eq_true] at hall
        rw [isDigit_isIdentChar c0 hall.1] at hc0
        cases hc0
      · rw [hv0] at hw
        simp only [isWord, Bool.and_eq_true] at hw
        rw [isAlpha_isIdentChar c0 hw.1] at hc0
        cases hc0
      · exact ⟨t2, l2, h2, (punctuation_type c _ hc).2.1, Or.inr ⟨c, hc⟩⟩
  · exact Or.inl h2

theorem function_first (l : Lexer) (t : Token) (l1 : Lexer) (vars : Env)
    (h : l.getNextToken = .ok (t, l1)) (ht : t.type = TokenType.FUNCTION) :
    (Parser.new l = .ok ⟨l, t⟩ ∧
      ∀ m, Parser.statement m vars ⟨l, t⟩ = .error Error.UnexpectedToken ∧
        Parser.parse (m + 1) vars ⟨l, t⟩ = .error Error.UnexpectedToken) ∧
    (Parser.at l = .ok ⟨l1, t⟩ ∧
      ∃ e, (e = Error.UnexpectedToken ∨ e = Error.InvalidCharacter) ∧
        ∀ m, Parser.statement m vars ⟨l1, t⟩ = .error e ∧
          Parser.parse (m + 1) vars ⟨l1, t⟩ = .error e) := by
  have hne1 : ¬ TokenType.FUNCTION = TokenType.IF := by decide
  have hne2 : ¬ TokenType.FUNCTION = TokenType.WHILE := by decide
  have hne3 : ¬ TokenType.FUNCTION = TokenType.VARIABLE := by decide
  have hne4 : TokenType.FUNCTION ≠ TokenType.END := by decide
  constructor
  · refine ⟨by simp only [Parser.new, h], fun m => ?_⟩
    have hs : Parser.statement m vars ⟨l, t⟩ = .error Error.UnexpectedToken := by
      simp only [Parser.statement, ht, if_neg hne1, if_neg hne2, if_true, Parser.eat, h,
        Result.bind, if_neg hne3]
    refine ⟨hs, ?_⟩
    simp only [Parser.parse, ht, ne_eq, hne4, not_false_eq_true, if_true, hs, Result.bind]
  · refine ⟨by simp only [Parser.at, h], ?_⟩
    rcases after_word l t l1 h ht with h2 | ⟨t2, l2, h2, hvar, _⟩
    · refine ⟨Error.InvalidCharacter, Or.inr rfl, fun m => ?_⟩
      have hs : Parser.statement m vars ⟨l1, t⟩ = .error Error.InvalidCharacter := by
        simp only [Parser.statement, ht, if_neg hne1, if_neg hne2, if_true, Parser.eat, h2,
          Result.bind]
      refine ⟨hs, ?_⟩
      simp only [Parser.parse, ht, ne_eq, hne4, not_false_eq_true, if_true, hs, Result.bind]
    · refine ⟨Error.UnexpectedToken, Or.inl rfl, fun m => ?_⟩
      have hs : Parser.statement m vars ⟨l1, t⟩ = .error Error.UnexpectedToken := by
        simp only [Parser.statement, ht, if_neg hne1, if_neg hne2, if_true, Parser.eat, h2,
          Result.bind, if_neg hvar]
      refine ⟨hs, ?_⟩
      simp only [Parser.parse, ht, ne_eq, hne4, not_false_eq_true, if_true, hs, Result.bind]

/-- C13, as stated: the assignment `x=x+1` on the store `x = 1` stores 2 the
first time and 3 the second time; the program `x=x+1x=x+1` ends with `x = 3`
where `x=x+1` ends with `x = 2`. -/
theorem increment_not_idempotent :
    stateAt [] "x=x+1".toList
      = .ok { lexer := { input := "x=x+1".toList, position := 1 },
              currentToken := ⟨TokenType.VARIABLE, "x".toList⟩ } ∧
    Parser.statement 20 [("x".toList, 1)]
        { lexer := { input := "x=x+1".toList, position := 1 },
          currentToken := ⟨TokenType.VARIABLE, "x".toList⟩ }
      = .ok ([("x".toList, 2)],
          { lexer := { input := "x=x+1".toList, position := 5 },
            currentToken := ⟨TokenType.END, []⟩ }) ∧
    Parser.statement 20 [("x".toList, 2)]
        { lexer := { input := "x=x+1".toList, position := 1 },
          currentToken := ⟨TokenType.VARIABLE, "x".toList⟩ }
      = .ok ([("x".toList, 3)],
          { lexer := { input := "x=x+1".toList, position := 5 },
            currentToken := ⟨TokenType.END, []⟩ }) ∧
    parseFrom 20 "x=x+1".toList [("x".toList, 1)] = .ok [("x".toList, 2)] ∧
    parseFrom 30 "x=x+1x=x+1".toList [("x".toList, 1)] = .ok [("x".toList, 3)] := by
  refine ⟨by decide, by decide, by decide, by decide, by decide⟩

/-- C13, amended: for every store and every assignment `n=e` whose right-hand
expression has a reference value and does not mention `n`, executing the
statement on the store it produced gives that same store again: the store
after two executions equals the store after one. -/
theorem assignment_idempotent (vars : Env) (n : List Char) (e : Expr) (v : Int)
    (pre post : List Char) (p : Parser)
    (hn : isIdentifier n = true) (hv : e.value vars = some v) (hwf : e.wellFormed = true)
    (hfree : e.mentions n = false) (hpost : stops post = true)
    (hp : stateAt pre (n ++ '=' :: (e.text ++ post)) = .ok p) :
    ∃ p' N, ∀ m, N ≤ m →
      Parser.statement m vars p = .ok (vars.set n v, p') ∧
      Parser.statement m (vars.set n v) p = .ok (vars.set n v, p') :=
  assignment_twice vars n e v pre post p hn hv hwf hfree hpost hp

/-- C13, instance: `b=(a+3)*2-8/3` on the store `a = 5`. -/
theorem assignment_idempotent_witness :
    isIdentifier "b".toList = true ∧ sampleExpr.value [("a".toList, 5)] = some 14 ∧
    sampleExpr.wellFormed = true ∧ sampleExpr.mentions "b".toList = false ∧
    stops [] = true ∧
    stateAt [] ("b".toList ++ '=' :: (sampleExpr.text ++ []))
      = .ok { lexer := { input := "b=(a+3)*2-8/3".toList, position := 1 },
              currentToken := ⟨TokenType.VARIABLE, "b".toList⟩ } ∧
    ∃ p' N, ∀ m, N ≤ m →
      Parser.statement m [("a".toList, 5)]
          { lexer := { input := "b=(a+3)*2-8/3".toList, position := 1 },
            currentToken := ⟨TokenType.VARIABLE, "b".toList⟩ }
        = .ok (Env.set [("a".toList, 5)] "b".toList 14, p') ∧
      Parser.statement m (Env.set [("a".toList, 5)] "b".toList 14)
          { lexer := { input := "b=(a+3)*2-8/3".toList, position := 1 },
            currentToken := ⟨TokenType.VARIABLE, "b".toList⟩ }
        = .ok (Env.set [("a".toList, 5)] "b".toList 14, p') :=
  ⟨by decide, by decide, by decide, by decide, by decide, by decide,
    assignment_idempotent [("a".toList, 5)] "b".toList sampleExpr 14 [] []
      { lexer := { input := "b=(a+3)*2-8/3".toList, position := 1 },
        currentToken := ⟨TokenType.VARIABLE, "b".toList⟩ }
      (by decide) (by decide) (by decide) (by decide) (by decide) (by decide)⟩

/-- C14: for every identifier lexeme at the cursor (a letter, then the maximal
run of letters, digits and underscores), `Lexer::getNextToken` returns a token
whose text is the lexeme and leaves the cursor just past it; the kind is IF,
ELSE, WHILE or FUNCTION exactly when the lexeme is `if`, `else`, `while` or
`function`, and otherwise the token is the VARIABLE token of the lexeme. -/
theorem keyword_classification (l : Lexer) (x post : List Char)
    (hx : isWord x = true) (hpost : ∀ c ∈ post.head?, isIdentChar c = false)
    (h : l.input.drop l.position = x ++ post) :
    ∃ t, l.getNextToken = .ok (t, { l with position := l.position + x.length }) ∧
      t.value = x ∧
      (t.type = TokenType.IF ↔ x = "if".toList) ∧
      (t.type = TokenType.ELSE ↔ x = "else".toList) ∧
      (t.type = TokenType.WHILE ↔ x = "while".toList) ∧
      (t.type = TokenType.FUNCTION ↔ x = "function".toList) ∧
      (x ≠ "if".toList → x ≠ "else".toList → x ≠ "while".toList → x ≠ "function".toList →
        t = ⟨TokenType.VARIABLE, x⟩) :=
  word_classified l x post hx hpost h

/-- C14, instance: in `If(1)` the lexeme `If` is a name, the keyword being
spelled in lower case. -/
theorem keyword_classification_witness :
    isWord "If".toList = true ∧ (∀ c ∈ ("(1)".toList).head?, isIdentChar c = false) ∧
    ("If(1)".toList).drop 0 = "If".toList ++ "(1)".toList ∧
    Lexer.getNextToken { input := "If(1)".toList, position := 0 }
      = .ok (⟨TokenType.VARIABLE, "If".toList⟩, { input := "If(1)".toList, position := 2 }) ∧
    ∃ t, Lexer.getNextToken { input := "If(1)".toList, position := 0 }
        = .ok (t, { input := "If(1)".toList, position := 0 + ("If".toList).length }) ∧
      t.value = "If".toList ∧
      (t.type = TokenType.IF ↔ "If".toList = "if".toList) ∧
      (t.type = TokenType.ELSE ↔ "If".toList = "else".toList) ∧
      (t.type = TokenType.WHILE ↔ "If".toList = "while".toList) ∧
      (t.type = TokenType.FUNCTION ↔ "If".toList = "function".toList) ∧
      ("If".toList ≠ "if".toList → "If".toList ≠ "else".toList → "If".toList ≠ "while".toList →
        "If".toList ≠ "function".toList → t = ⟨TokenType.VARIABLE, "If".toList⟩) :=
  ⟨by decide, by decide, by decide, by decide,
    keyword_classification { input := "If(1)".toList, position := 0 } "If".toList "(1)".toList
      (by decide) (by decide) (by decide)⟩

/-- C15, as stated: on the text `_x1` the scanner returns no VARIABLE token;
it fails with "Invalid character" at the underscore. -/
theorem underscore_start_fails :
    Lexer.getNextToken { input := "_x1".toList, position := 0 }
      = .error Error.InvalidCharacter := by
  decide

/-- C15, amended: an identifier may not begin with an underscore: for every
source text whose character at the cursor is `_`, whatever follows,
`Lexer::getNextToken` fails with "Invalid character"; the underscore is taken
into an identifier only after a leading letter, as in `x_1`. -/
theorem underscore_not_start (l : Lexer) (h : l.input[l.position]? = some '_') :
    l.getNextToken = .error Error.InvalidCharacter ∧
    Lexer.getNextToken { input := "x_1".toList, position := 0 }
      = .ok (⟨TokenType.VARIABLE, "x_1".toList⟩, { input := "x_1".toList, position := 3 }) :=
  ⟨underscore_invalid l h, by decide⟩

/-- C15, instance: the underscore at index 2 of `a=_b`. -/
theorem underscore_not_start_witness :
    ("a=_b".toList)[2]? = some '_' ∧
    Lexer.getNextToken { input := "a=_b".toList, position := 2 }
      = .error Error.InvalidCharacter ∧
    Lexer.getNextToken { input := "x_1".toList, position := 0 }
      = .ok (⟨TokenType.VARIABLE, "x_1".toList⟩, { input := "x_1".toList, position := 3 }) :=
  ⟨by decide, underscore_not_start { input := "a=_b".toList, position := 2 } (by decide)⟩

/-- C16: for every scanner state whose cursor is at the end of the buffer,
`Lexer::getNextToken` returns the END token with empty text and the same
state, so any number of further calls return END again. -/
theorem end_of_input_idempotent (l : Lexer) (h : l.position = l.input.length) :
    l.getNextToken = .ok (⟨TokenType.END, []⟩, l) ∧
      ∀ n, l.getTokens n = .ok (List.replicate n ⟨TokenType.END, []⟩, l) :=
  ⟨getNextToken_at_end l h, getTokens_at_end l h⟩

/-- C16, instance: the text `x=1` with the cursor at 3. -/
theorem end_of_input_idempotent_witness :
    (3 : Nat) = ("x=1".toList).length ∧
    Lexer.getNextToken { input := "x=1".toList, position := 3 }
      = .ok (⟨TokenType.END, []⟩, { input := "x=1".toList, position := 3 }) ∧
    ∀ n, Lexer.getTokens n { input := "x=1".toList, position := 3 }
      = .ok (List.replicate n ⟨TokenType.END, []⟩, { input := "x=1".toList, position := 3 }) :=
  ⟨by decide, end_of_input_idempotent { input := "x=1".toList, position := 3 } (by decide)⟩

/-- C19: for every source text and cursor at which `Lexer::getNextToken`
returns the FUNCTION token, the next call fails with "Invalid character" or
returns END or a punctuation token, never a VARIABLE token; hence when that
cursor is 0, for every store, the first statement fails and so does the run,
with "Unexpected token" (`eat(VARIABLE)`) as `main` performs it, and with
"Unexpected token" or "Invalid character" when the scanner starts just past
the keyword; no assignment is reached. -/
theorem function_never_defined (l : Lexer) (t : Token) (l1 : Lexer)
    (h : l.getNextToken = .ok (t, l1)) (ht : t.type = TokenType.FUNCTION) :
    (l1.getNextToken = .error Error.InvalidCharacter ∨
      ∃ t2 l2, l1.getNextToken = .ok (t2, l2) ∧ t2.type ≠ TokenType.VARIABLE ∧
        (t2.type = TokenType.END ∨ ∃ c, (c, t2.type) ∈ punctuation)) ∧
    (l.position = 0 → ∀ vars : Env,
      (∃ p, Parser.new l = .ok p ∧
        ∀ m, Parser.statement m vars p = .error Error.UnexpectedToken ∧
          run (m + 1) l.input vars = .error Error.UnexpectedToken) ∧
      (∃ p e, Parser.at l = .ok p ∧ (e = Error.UnexpectedToken ∨ e = Error.InvalidCharacter) ∧
        ∀ m, Parser.statement m vars p = .error e ∧
          parseFrom (m + 1) l.input vars = .error e)) := by
  refine ⟨after_word l t l1 h ht, fun hpos vars => ?_⟩
  obtain ⟨⟨hnew, hrun⟩, hat, e, he, hfrom⟩ := function_first l t l1 vars h ht
  have hl : ({ input := l.input, position := 0 } : Lexer) = l := by
    cases l
    simp only at hpos
    subst hpos
    rfl
  refine ⟨⟨_, hnew, fun m => ⟨(hrun m).1, ?_⟩⟩, ⟨_, e, hat, he, fun m => ⟨(hfrom m).1, ?_⟩⟩⟩
  · simp only [run, hl, hnew, Result.bind, (hrun m).2]
  · simp only [parseFrom, hl, hat, Result.bind, (hfrom m).2]

/-- C19, instance: the text `function f(a,b)1`. -/
theorem function_never_defined_witness :
    Lexer.getNextToken { input := "function f(a,b)1".toList, position := 0 }
      = .ok (⟨TokenType.FUNCTION, "function".toList⟩,
          { input := "function f(a,b)1".toList, position := 8 }) ∧
    (⟨TokenType.FUNCTION, "function".toList⟩ : Token).type = TokenType.FUNCTION ∧
    ((Lexer.getNextToken { input := "function f(a,b)1".toList, position := 8 }
        = .error Error.InvalidCharacter ∨
      ∃ t2 l2, Lexer.getNextToken { input := "function f(a,b)1".toList, position := 8 }
          = .ok (t2, l2) ∧ t2.type ≠ TokenType.VARIABLE ∧
        (t2.type = TokenType.END ∨ ∃ c, (c, t2.type) ∈ punctuation)) ∧
    ((0 : Nat) = 0 → ∀ vars : Env,
      (∃ p, Parser.new { input := "function f(a,b)1".toList, position := 0 } = .ok p ∧
        ∀ m, Parser.statement m vars p = .error Error.UnexpectedToken ∧
          run (m + 1) "function f(a,b)1".toList vars = .error Error.UnexpectedToken) ∧
      (∃ p e, Parser.at { input := "function f(a,b)1".toList, position := 0 } = .ok p ∧
        (e = Error.UnexpectedToken ∨ e = Error.InvalidCharacter) ∧
        ∀ m, Parser.statement m vars p = .error e ∧
          parseFrom (m + 1) "function f(a,b)1".toList vars = .error e))) :=
  ⟨by decide, rfl,
    function_never_defined { input := "function f(a,b)1".toList, position := 0 }
      ⟨TokenType.FUNCTION, "function".toList⟩
      { input := "function f(a,b)1".toList, position := 8 } (by decide) rfl⟩

/-- C20: for every source text on which repeated calls of
`Lexer::getNextToken` from cursor 0 reach the END token without an error, the
texts of the returned tokens, concatenated in order, are the source text; and
every call that returns a token other than END returns a non-empty text,
keeps the buffer and advances the cursor by exactly the length of that
text. -/
theorem scanning_loses_nothing (fuel : Nat) (input : List Char) (ts : List Token)
    (h : Lexer.scanAll fuel { input := input, position := 0 } = .ok ts) :
    (ts.map Token.value).flatten = input ∧
      ∀ (l : Lexer) (t : Token) (l1 : Lexer), l.getNextToken = .ok (t, l1) →
        t.type ≠ TokenType.END →
        t.value ≠ [] ∧ l1.position = l.position + t.value.length ∧ l1.input = l.input :=
  scanAll_source fuel input ts h

/-- C20, instance: the seven tokens of `if(x1+20)` and the END token. -/
theorem scanning_loses_nothing_witness :
    Lexer.scanAll 10 { input := "if(x1+20)".toList, position := 0 }
      = .ok [⟨TokenType.IF, "if".toList⟩, ⟨TokenType.LPAREN, ['(']⟩,
          ⟨TokenType.VARIABLE, "x1".toList⟩, ⟨TokenType.PLUS, ['+']⟩,
          ⟨TokenType.NUMBER, "20".toList⟩, ⟨TokenType.RPAREN, [')']⟩,
          ⟨TokenType.END, []⟩] ∧
    (([⟨TokenType.IF, "if".toList⟩, ⟨TokenType.LPAREN, ['(']⟩,
          ⟨TokenType.VARIABLE, "x1".toList⟩, ⟨TokenType.PLUS, ['+']⟩,
          ⟨TokenType.NUMBER, "20".toList⟩, ⟨TokenType.RPAREN, [')']⟩,
          ⟨TokenType.END, []⟩] : List Token).map Token.value).flatten = "if(x1+20)".toList ∧
      ∀ (l : Lexer) (t : Token) (l1 : Lexer), l.getNextToken = .ok (t, l1) →
        t.type ≠ TokenType.END →
        t.value ≠ [] ∧ l1.position = l.position + t.value.length ∧ l1.input = l.input :=
  ⟨by decide, scanning_loses_nothing 10 "if(x1+20)".toList _ (by decide)⟩

/-! ## Every run ends -/

theorem Result.holds_ok {α : Type} {R : α → Prop} {a : α} (h : R a) :
    (Result.ok a).holds R :=
  ⟨by simp, by simp, fun b hb => by cases hb; exact h⟩

theorem Result.holds_error {α : Type} {R : α → Prop} {e : Error}
    (h : e ≠ Error.InvalidArgument) : (Result.error e : Result α).holds R :=
  ⟨by simp, by simpa using h, fun b hb => by cases hb⟩

theorem Result.holds_bind {α β : Type} {R1 : α → Prop} {R2 : β → Prop} {r : Result α}
    {f : α → Result β} (h1 : r.holds R1) (h2 : ∀ a, R1 a → (f a).holds R2) :
    (r.bind f).holds R2 := by
  cases r with
  | ok a => exact h2 a (h1.2.2 a rfl)
  | error e => exact Result.holds_error (fun he => h1.2.1 (by rw [he]))
  | outOfFuel => exact absurd rfl h1.1

theorem Result.holds_imp {α : Type} {R1 R2 : α → Prop} {r : Result α}
    (h1 : r.holds R1) (h2 : ∀ a, R1 a → R2 a) : r.holds R2 :=
  ⟨h1.1, h1.2.1, fun a ha => h2 a (h1.2.2 a ha)⟩

theorem classify_type (x : List Char) :
    (classify x).type ≠ TokenType.NUMBER ∧ (classify x).type ≠ TokenType.END := by
  unfold classify
  split_ifs <;> exact ⟨fun h => (by cases h), fun h => (by cases h)⟩

theorem validChar_of_isIdentChar (c : Char) (h : isIdentChar c = true) :
    validChar c = true := by
  simp only [isIdentChar, Char.isAlphanum, Bool.or_eq_true, beq_iff_eq] at h
  simp only [validChar, Bool.or_eq_true, beq_iff_eq]
  tauto

theorem validChar_of_punctuation (c : Char) (ty : TokenType) (h : (c, ty) ∈ punctuation) :
    validChar c = true := by
  simp only [punctuation, List.mem_cons, Prod.mk.injEq, List.mem_singleton,
    List.not_mem_nil, or_false] at h
  rcases h with e | e | e | e | e | e | e | e
  all_goals
    obtain ⟨hc, _⟩ := e
    subst hc
    decide

/-- What a scanned token other than END is made of. -/
theorem getNextToken_token (l : Lexer) (t : Token) (l1 : Lexer)
    (h : l.getNextToken = .ok (t, l1)) :
    (t.type = TokenType.NUMBER → isLiteral t.value = true) ∧
      (∀ c ∈ t.value, validChar c = true) ∧
      (t.type = TokenType.END → l.input.length ≤ l.position ∧ l1 = l) := by
  obtain ⟨_, hcase⟩ := getNextToken_spec l t l1 h
  rcases hcase with ⟨hlen, ht, hl⟩ | ⟨_, _, hne, hk⟩
  · subst ht
    exact ⟨fun h => (by cases h), fun c hc => (by cases hc), fun _ => ⟨hlen, hl⟩⟩
  · rcases hk with ⟨hnum, hall, _⟩ | ⟨hw, hcl, _⟩ | ⟨c, hc, hv⟩
    · refine ⟨fun _ => ?_, fun c hc => ?_, fun he => ?_⟩
      · simp only [isLiteral, Bool.and_eq_true, Bool.not_eq_true', List.isEmpty_eq_false]
        exact ⟨hne, hall⟩
      · have := List.all_eq_true.mp hall c hc
        simp only [validChar, this, Bool.true_or]
      · rw [hnum] at he
        cases he
    · have hty := classify_type t.value
      rw [← hcl] at hty
      refine ⟨fun h => absurd h hty.1, fun c hc => ?_, fun he => absurd he hty.2⟩
      cases hval : t.value with
      | nil => exact absurd hval hne
      | cons a rest =>
        rw [hval] at hw hc
        simp only [isWord, Bool.and_eq_true] at hw
        rcases List.mem_cons.mp hc with rfl | hc1
        · simp only [validChar, hw.1, Bool.true_or, Bool.or_true]
        · exact validChar_of_isIdentChar c (List.all_eq_true.mp hw.2 c hc1)
    · have hty := punctuation_type c _ hc
      refine ⟨fun h => absurd h hty.1, fun d hd => ?_, fun he => absurd he hty.2.2.2.2.2.2⟩
      rw [hv] at hd
      simp only [List.mem_singleton] at hd
      subst hd
      exact validChar_of_punctuation d _ hc

/-- The state made of a scanned token and the scanner after it. -/
theorem scanned_inv (l : Lexer) (t : Token) (l1 : Lexer)
    (h : l.getNextToken = .ok (t, l1))
    (hpre : ∀ c ∈ l.input.take l.position, validChar c = true) :
    (Parser.mk l1 t).inv ∧ l1.input = l.input ∧
      (t.type ≠ TokenType.END → l.position < l1.position ∧ l.position < l.input.length) ∧
      (t.type = TokenType.END → l1 = l) := by
  obtain ⟨hnum, hval, hend⟩ := getNextToken_token l t l1 h
  obtain ⟨hin, hcase⟩ := getNextToken_spec l t l1 h
  obtain ⟨_, hprog⟩ := getNextToken_progress l t l1 h
  refine ⟨⟨hnum, ?_, fun he => ?_⟩, hin, fun hne => ?_, fun he => (hend he).2⟩
  · rcases hcase with ⟨_, _, hl⟩ | ⟨htext, hpos, _, _⟩
    · rw [hl]
      exact hpre
    · intro c hc
      simp only [hin, hpos, List.take_add] at hc
      rcases List.mem_append.mp hc with hc1 | hc2
      · exact hpre c hc1
      · apply hval c
        rw [htext, List.take_left] at hc2
        exact hc2
  · obtain ⟨hlen, hl⟩ := hend he
    simp only [hl]
    exact hlen
  · rcases hprog with ⟨_, ht, _⟩ | ⟨h1, h2, _⟩
    · rw [ht] at hne
      exact absurd rfl hne
    · exact ⟨h2, h1⟩

theorem eat_holds (p : Parser) (ty : TokenType) (hinv : p.inv) (hty : ty ≠ TokenType.END) :
    (p.eat ty).holds (fun q => q.lt p) := by
  unfold Parser.eat
  by_cases hcur : p.currentToken.type = ty
  · rw [if_pos hcur]
    rcases getNextToken_ok_or_invalid p.lexer with ⟨t, l1, h⟩ | h
    · rw [h]
      obtain ⟨hi, hin, hne, he⟩ := scanned_inv p.lexer t l1 h hinv.2.1
      refine Result.holds_ok ⟨hi, ?_, hin⟩
      have hp : p.measure = (p.lexer.input.length - p.lexer.position) + 1 := by
        simp only [Parser.measure, hcur, if_neg hty]
      rw [hp]
      by_cases hte : t.type = TokenType.END
      · simp only [Parser.measure, hte, if_true, he hte]
        omega
      · obtain ⟨h1, h2⟩ := hne hte
        simp only [Parser.measure, hte, if_false, hin]
        omega
    · rw [h]
      exact Result.holds_error (by decide)
  · rw [if_neg hcur]
    exact Result.holds_error (by decide)

theorem stoi_holds (p : Parser) (hinv : p.inv) (h : p.currentToken.type = TokenType.NUMBER) :
    (stoi p.currentToken.value).holds (fun _ => True) := by
  have hlit := hinv.1 h
  have hall : p.currentToken.value.all Char.isDigit = true := by
    simp only [isLiteral, Bool.and_eq_true] at hlit
    exact hlit.2
  have hne : p.currentToken.value ≠ [] := by
    intro hnil
    rw [hnil] at hlit
    simp [isLiteral] at hlit
  have ht : p.currentToken.value.takeWhile Char.isDigit = p.currentToken.value := by
    have := takeWhile_run Char.isDigit p.currentToken.value [] hall (by simp)
    simpa using this
  simp only [stoi, ht, if_neg hne]
  split_ifs
  · exact Result.holds_ok trivial
  · exact Result.holds_error (by decide)

theorem checkInt_holds (v : Int) : (checkInt v).holds (fun _ => True) := by
  unfold checkInt
  split_ifs
  · exact Result.holds_ok trivial
  · exact Result.holds_error (by decide)

theorem divInt_holds (a b : Int) : (divInt a b).holds (fun _ => True) := by
  unfold divInt
  split_ifs
  · exact Result.holds_error (by decide)
  · exact checkInt_holds _

theorem exprFamily_total (vars : Env) : ∀ k : Nat,
    (∀ n p, p.inv → p.measure < k → 3 * k + 1 ≤ n →
      (Parser.factor n vars p).holds (fun a => a.2.lt p)) ∧
    (∀ n r p, p.inv → p.measure < k → 3 * k + 1 ≤ n →
      (Parser.termLoop n vars r p).holds (fun a => a.2.le p)) ∧
    (∀ n p, p.inv → p.measure < k → 3 * k + 2 ≤ n →
      (Parser.term n vars p).holds (fun a => a.2.lt p)) ∧
    (∀ n r p, p.inv → p.measure < k → 3 * k + 2 ≤ n →
      (Parser.exprLoop n vars r p).holds (fun a => a.2.le p)) ∧
    (∀ n p, p.inv → p.measure < k → 3 * k + 3 ≤ n →
      (Parser.expr n vars p).holds (fun a => a.2.lt p)) := by
  intro k
  induction k with
  | zero =>
    refine ⟨?_, ?_, ?_, ?_, ?_⟩ <;> intros <;> omega
  | succ k ih =>
    obtain ⟨ihF, ihTL, ihT, ihEL, ihE⟩ := ih
    have hF : ∀ n p, p.inv → p.measure < k + 1 → 3 * (k + 1) + 1 ≤ n →
        (Parser.factor n vars p).holds (fun a => a.2.lt p) := by
      intro n p hinv hm hn
      obtain ⟨n', rfl⟩ : ∃ n', n = n' + 1 := ⟨n - 1, by omega⟩
      simp only [Parser.factor]
      split_ifs with h1 h2 h3
      · refine Result.holds_bind (stoi_holds p hinv h1) fun value _ => ?_
        refine Result.holds_bind (eat_holds p _ hinv (by decide)) fun p1 hp1 => ?_
        exact Result.holds_ok hp1
      · refine Result.holds_bind (eat_holds p _ hinv (by decide)) fun p1 hp1 => ?_
        split
        · exact Result.holds_ok hp1
        · exact Result.holds_error (by decide)
      · refine Result.holds_bind (eat_holds p _ hinv (by decide)) fun p1 hp1 => ?_
        refine Result.holds_bind (ihE n' p1 hp1.1 (by omega) (by omega)) fun r hr => ?_
        refine Result.holds_bind (eat_holds r.2 _ hr.1 (by decide)) fun p3 hp3 => ?_
        exact Result.holds_ok
          (show p3.lt p from ⟨hp3.1, by omega, by rw [hp3.2.2, hr.2.2, hp1.2.2]⟩)
      · exact Result.holds_error (by decide)
    have hTL : ∀ n r p, p.inv → p.measure < k + 1 → 3 * (k + 1) + 1 ≤ n →
        (Parser.termLoop n vars r p).holds (fun a => a.2.le p) := by
      intro n r p hinv hm hn
      obtain ⟨n', rfl⟩ : ∃ n', n = n' + 1 := ⟨n - 1, by omega⟩
      simp only [Parser.termLoop]
      split_ifs with h1 h2
      · refine Result.holds_bind (eat_holds p _ hinv (by decide)) fun p1 hp1 => ?_
        refine Result.holds_bind (ihF n' p1 hp1.1 (by omega) (by omega)) fun a ha => ?_
        refine Result.holds_bind (checkInt_holds _) fun v _ => ?_
        refine Result.holds_imp (ihTL n' v a.2 ha.1 (by omega) (by omega)) fun b hb => ?_
        exact ⟨hb.1, by omega, by rw [hb.2.2, ha.2.2, hp1.2.2]⟩
      · refine Result.holds_bind (eat_holds p _ hinv (by decide)) fun p1 hp1 => ?_
        refine Result.holds_bind (ihF n' p1 hp1.1 (by omega) (by omega)) fun a ha => ?_
        refine Result.holds_bind (divInt_holds _ _) fun v _ => ?_
        refine Result.holds_imp (ihTL n' v a.2 ha.1 (by omega) (by omega)) fun b hb => ?_
        exact ⟨hb.1, by omega, by rw [hb.2.2, ha.2.2, hp1.2.2]⟩
      · exact Result.holds_ok ⟨hinv, le_refl _, rfl⟩
    have hT : ∀ n p, p.inv → p.measure < k + 1 → 3 * (k + 1) + 2 ≤ n →
        (Parser.term n vars p).holds (fun a => a.2.lt p) := by
      intro n p hinv hm hn
      obtain ⟨n', rfl⟩ : ∃ n', n = n' + 1 := ⟨n - 1, by omega⟩
      simp only [Parser.term]
      refine Result.holds_bind (hF n' p hinv hm (by omega)) fun a ha => ?_
      refine Result.holds_imp (ihTL n' a.1 a.2 ha.1 (by omega) (by omega)) fun b hb => ?_
      exact ⟨hb.1, by omega, by rw [hb.2.2, ha.2.2]⟩
    have hEL : ∀ n r p, p.inv → p.measure < k + 1 → 3 * (k + 1) + 2 ≤ n →
        (Parser.exprLoop n vars r p).holds (fun a => a.2.le p) := by
      intro n r p hinv hm hn
      obtain ⟨n', rfl⟩ : ∃ n', n = n' + 1 := ⟨n - 1, by omega⟩
      simp only [Parser.exprLoop]
      split_ifs with h1 h2
      · refine Result.holds_bind (eat_holds p _ hinv (by decide)) fun p1 hp1 => ?_
        refine Result.holds_bind (ihT n' p1 hp1.1 (by omega) (by omega)) fun a ha => ?_
        refine Result.holds_bind (checkInt_holds _) fun v _ => ?_
        refine Result.holds_imp (ihEL n' v a.2 ha.1 (by omega) (by omega)) fun b hb => ?_
        exact ⟨hb.1, by omega, by rw [hb.2.2, ha.2.2, hp1.2.2]⟩
      · refine Result.holds_bind (eat_holds p _ hinv (by decide)) fun p1 hp1 => ?_
        refine Result.holds_bind (ihT n' p1 hp1.1 (by omega) (by omega)) fun a ha => ?_
        refine Result.holds_bind (checkInt_holds _) fun v _ => ?_
        refine Result.holds_imp (ihEL n' v a.2 ha.1 (by omega) (by omega)) fun b hb => ?_
        exact ⟨hb.1, by omega, by rw [hb.2.2, ha.2.2, hp1.2.2]⟩
      · exact Result.holds_ok ⟨hinv, le_refl _, rfl⟩
    have hE : ∀ n p, p.inv → p.measure < k + 1 → 3 * (k + 1) + 3 ≤ n →
        (Parser.expr n vars p).holds (fun a => a.2.lt p) := by
      intro n p hinv hm hn
      obtain ⟨n', rfl⟩ : ∃ n', n = n' + 1 := ⟨n - 1, by omega⟩
      simp only [Parser.expr]
      refine Result.holds_bind (hT n' p hinv hm (by omega)) fun a ha => ?_
      refine Result.holds_imp (ihEL n' a.1 a.2 ha.1 (by omega) (by omega)) fun b hb => ?_
      exact ⟨hb.1, by omega, by rw [hb.2.2, ha.2.2]⟩
    exact ⟨hF, hTL, hT, hEL, hE⟩

theorem expr_total (vars : Env) (n : Nat) (p : Parser) (hinv : p.inv)
    (hn : 3 * (p.measure + 1) + 3 ≤ n) :
    (Parser.expr n vars p).holds (fun a => a.2.lt p) :=
  (exprFamily_total vars (p.measure + 1)).2.2.2.2 n p hinv (by omega) hn

theorem skipToElseOrEnd_holds : ∀ (k n : Nat) (p : Parser), p.inv → p.measure < k →
    3 * k + 1 ≤ n → (Parser.skipToElseOrEnd n p).holds (fun q => q.le p) := by
  intro k
  induction k with
  | zero => intros; omega
  | succ k ih =>
    intro n p hinv hm hn
    obtain ⟨n', rfl⟩ : ∃ n', n = n' + 1 := ⟨n - 1, by omega⟩
    simp only [Parser.skipToElseOrEnd]
    split_ifs with h1
    · refine Result.holds_bind (eat_holds p _ hinv h1.2) fun p1 hp1 => ?_
      refine Result.holds_imp (ih n' p1 hp1.1 (by omega) (by omega)) fun q hq => ?_
      exact ⟨hq.1, by omega, by rw [hq.2.2, hp1.2.2]⟩
    · exact Result.holds_ok ⟨hinv, le_refl _, rfl⟩

theorem skipToEnd_holds : ∀ (k n : Nat) (p : Parser), p.inv → p.measure < k →
    3 * k + 1 ≤ n → (Parser.skipToEnd n p).holds (fun q => q.le p) := by
  intro k
  induction k with
  | zero => intros; omega
  | succ k ih =>
    intro n p hinv hm hn
    obtain ⟨n', rfl⟩ : ∃ n', n = n' + 1 := ⟨n - 1, by omega⟩
    simp only [Parser.skipToEnd]
    split_ifs with h1
    · refine Result.holds_bind (eat_holds p _ hinv h1) fun p1 hp1 => ?_
      refine Result.holds_imp (ih n' p1 hp1.1 (by omega) (by omega)) fun q hq => ?_
      exact ⟨hq.1, by omega, by rw [hq.2.2, hp1.2.2]⟩
    · exact Result.holds_ok ⟨hinv, le_refl _, rfl⟩

theorem paramLoop_holds : ∀ (k n : Nat) (p : Parser), p.inv → p.measure < k →
    3 * k + 1 ≤ n → (Parser.paramLoop n p).holds (fun q => q.le p) := by
  intro k
  induction k with
  | zero => intros; omega
  | succ k ih =>
    intro n p hinv hm hn
    obtain ⟨n', rfl⟩ : ∃ n', n = n' + 1 := ⟨n - 1, by omega⟩
    simp only [Parser.paramLoop]
    split_ifs with h1
    · refine Result.holds_bind (eat_holds p _ hinv (by decide)) fun p1 hp1 => ?_
      split_ifs with h2
      · exact Result.holds_ok ⟨hp1.1, by omega, hp1.2.2⟩
      · refine Result.holds_bind (eat_holds p1 _ hp1.1 (by decide)) fun p2 hp2 => ?_
        refine Result.holds_imp (ih n' p2 hp2.1 (by omega) (by omega)) fun q hq => ?_
        exact ⟨hq.1, by omega, by rw [hq.2.2, hp2.2.2, hp1.2.2]⟩
    · exact Result.holds_ok ⟨hinv, le_refl _, rfl⟩

theorem whileLoop_holds (vars : Env) : ∀ (k n : Nat) (c : Int) (p : Parser), p.inv →
    p.measure < k → 3 * k + 2 ≤ n →
    (Parser.whileLoop n vars c p).holds (fun q => q.le p) := by
  intro k
  induction k with
  | zero => intros; omega
  | succ k ih =>
    intro n c p hinv hm hn
    obtain ⟨n', rfl⟩ : ∃ n', n = n' + 1 := ⟨n - 1, by omega⟩
    simp only [Parser.whileLoop]
    split_ifs with h1
    · refine Result.holds_bind (skipToEnd_holds (k + 1) n' p hinv hm (by omega))
        fun p1 hp1 => ?_
      refine Result.holds_bind (eat_holds p1 _ hp1.1 (by decide)) fun p2 hp2 => ?_
      refine Result.holds_bind (eat_holds p2 _ hp2.1 (by decide)) fun p3 hp3 => ?_
      refine Result.holds_bind
        ((exprFamily_total vars k).2.2.2.2 n' p3 hp3.1 (by omega) (by omega)) fun r hr => ?_
      refine Result.holds_bind (eat_holds r.2 _ hr.1 (by decide)) fun p4 hp4 => ?_
      refine Result.holds_imp (ih n' r.1 p4 hp4.1 (by omega) (by omega)) fun q hq => ?_
      exact ⟨hq.1, by omega,
        by rw [hq.2.2, hp4.2.2, hr.2.2, hp3.2.2, hp2.2.2, hp1.2.2]⟩
    · exact Result.holds_ok ⟨hinv, le_refl _, rfl⟩

/-- Every call of `Parser::statement` with enough fuel fails or returns with
something consumed. -/
theorem statement_holds (vars : Env) (k n : Nat) (p : Parser) (hinv : p.inv)
    (hm : p.measure < k) (hn : 3 * k + 3 ≤ n) :
    (Parser.statement n vars p).holds (fun a => a.2.lt p) := by
  obtain ⟨j, rfl⟩ : ∃ j, k = j + 1 := ⟨k - 1, by omega⟩
  have hE := (exprFamily_total vars j).2.2.2.2
  simp only [Parser.statement]
  split_ifs with h1 h2 h3 h4
  · refine Result.holds_bind (eat_holds p _ hinv (by decide)) fun p1 hp1 => ?_
    refine Result.holds_bind (eat_holds p1 _ hp1.1 (by decide)) fun p2 hp2 => ?_
    refine Result.holds_bind (hE n p2 hp2.1 (by omega) (by omega)) fun r hr => ?_
    refine Result.holds_bind (eat_holds r.2 _ hr.1 (by decide)) fun p3 hp3 => ?_
    have hin3 : p3.lexer.input = p.lexer.input := by
      rw [hp3.2.2, hr.2.2, hp2.2.2, hp1.2.2]
    split_ifs with h5
    · refine Result.holds_bind (skipToElseOrEnd_holds j n p3 hp3.1 (by omega) (by omega))
        fun p4 hp4 => ?_
      exact Result.holds_ok (show p4.lt p from ⟨hp4.1, by omega, by rw [hp4.2.2, hin3]⟩)
    · refine Result.holds_bind (skipToElseOrEnd_holds j n p3 hp3.1 (by omega) (by omega))
        fun p4 hp4 => ?_
      split_ifs with h6
      · refine Result.holds_bind (eat_holds p4 _ hp4.1 (by decide)) fun p5 hp5 => ?_
        refine Result.holds_bind (skipToEnd_holds j n p5 hp5.1 (by omega) (by omega))
          fun p6 hp6 => ?_
        exact Result.holds_ok
          (show p6.lt p from ⟨hp6.1, by omega, by rw [hp6.2.2, hp5.2.2, hp4.2.2, hin3]⟩)
      · exact Result.holds_ok (show p4.lt p from ⟨hp4.1, by omega, by rw [hp4.2.2, hin3]⟩)
  · refine Result.holds_bind (eat_holds p _ hinv (by decide)) fun p1 hp1 => ?_
    refine Result.holds_bind (eat_holds p1 _ hp1.1 (by decide)) fun p2 hp2 => ?_
    refine Result.holds_bind (hE n p2 hp2.1 (by omega) (by omega)) fun r hr => ?_
    refine Result.holds_bind (eat_holds r.2 _ hr.1 (by decide)) fun p3 hp3 => ?_
    refine Result.holds_bind (whileLoop_holds vars j n r.1 p3 hp3.1 (by omega) (by omega))
      fun p4 hp4 => ?_
    exact Result.holds_ok
      (show p4.lt p from
        ⟨hp4.1, by omega, by rw [hp4.2.2, hp3.2.2, hr.2.2, hp2.2.2, hp1.2.2]⟩)
  · refine Result.holds_bind (eat_holds p _ hinv (by decide)) fun p1 hp1 => ?_
    refine Result.holds_bind (eat_holds p1 _ hp1.1 (by decide)) fun p2 hp2 => ?_
    refine Result.holds_bind (eat_holds p2 _ hp2.1 (by decide)) fun p3 hp3 => ?_
    refine Result.holds_bind (paramLoop_holds j n p3 hp3.1 (by omega) (by omega))
      fun p4 hp4 => ?_
    refine Result.holds_bind (eat_holds p4 _ hp4.1 (by decide)) fun p5 hp5 => ?_
    refine Result.holds_bind (hE n p5 hp5.1 (by omega) (by omega)) fun r hr => ?_
    exact Result.holds_ok
      (show r.2.lt p from
        ⟨hr.1, by omega,
          by rw [hr.2.2, hp5.2.2, hp4.2.2, hp3.2.2, hp2.2.2, hp1.2.2]⟩)
  · refine Result.holds_bind (eat_holds p _ hinv (by decide)) fun p1 hp1 => ?_
    refine Result.holds_bind (eat_holds p1 _ hp1.1 (by decide)) fun p2 hp2 => ?_
    refine Result.holds_bind (hE n p2 hp2.1 (by omega) (by omega)) fun r hr => ?_
    exact Result.holds_ok
      (show r.2.lt p from ⟨hr.1, by omega, by rw [hr.2.2, hp2.2.2, hp1.2.2]⟩)
  · refine Result.holds_bind
      ((exprFamily_total vars (j + 1)).2.2.2.2 n p hinv hm hn) fun r hr => ?_
    exact Result.holds_ok (show r.2.lt p from hr)

theorem parse_holds : ∀ (k n : Nat) (vars : Env) (p : Parser), p.inv → p.measure < k →
    3 * k + 4 ≤ n →
    (Parser.parse n vars p).holds (fun _ => ∀ c ∈ p.lexer.input, validChar c = true) := by
  intro k
  induction k with
  | zero => intros; omega
  | succ k ih =>
    intro n vars p hinv hm hn
    obtain ⟨n', rfl⟩ : ∃ n', n = n' + 1 := ⟨n - 1, by omega⟩
    simp only [Parser.parse]
    split_ifs with h1
    · refine Result.holds_bind (statement_holds vars (k + 1) n' p hinv hm (by omega))
        fun r hr => ?_
      refine Result.holds_imp (ih n' r.1 r.2 hr.1 (by omega) (by omega)) fun _ h => ?_
      rw [← hr.2.2]
      exact h
    · refine Result.holds_ok ?_
      have hend : p.currentToken.type = TokenType.END := by
        by_contra hne
        exact h1 hne
      have hlen := hinv.2.2 hend
      have hpre := hinv.2.1
      rw [List.take_of_length_le hlen] at hpre
      exact hpre

theorem new_inv (input : List Char) (p : Parser)
    (h : Parser.new { input := input, position := 0 } = .ok p) :
    p.inv ∧ p.measure < input.length + 2 ∧ p.lexer.input = input := by
  unfold Parser.new at h
  rcases getNextToken_ok_or_invalid { input := input, position := 0 } with ⟨t, l1, hg⟩ | hg
  · rw [hg] at h
    simp only [Result.ok.injEq] at h
    subst h
    obtain ⟨hnum, _, hend⟩ := getNextToken_token _ t l1 hg
    refine ⟨⟨hnum, by simp, fun he => (hend he).1⟩, ?_, rfl⟩
    simp only [Parser.measure]
    split_ifs <;> omega
  · rw [hg] at h
    cases h

theorem new_holds (input : List Char) :
    (Parser.new { input := input, position := 0 }).holds
      (fun p => p.inv ∧ p.measure < input.length + 2 ∧ p.lexer.input = input) := by
  refine ⟨?_, ?_, fun p hp => new_inv input p hp⟩
  · unfold Parser.new
    rcases getNextToken_ok_or_invalid { input := input, position := 0 } with ⟨t, l1, hg⟩ | hg
    · rw [hg]; simp
    · rw [hg]; simp
  · unfold Parser.new
    rcases getNextToken_ok_or_invalid { input := input, position := 0 } with ⟨t, l1, hg⟩ | hg
    · rw [hg]; simp
    · rw [hg]; simp

/-- With fuel `3 * length + 10` the run has an outcome: a store, which then
means that every character of the text is one the scanner accepts, or a
failure other than `std::invalid_argument`. -/
theorem run_holds (input : List Char) (vars : Env) (n : Nat)
    (hn : 3 * input.length + 10 ≤ n) :
    (run n input vars).holds (fun _ => ∀ c ∈ input, validChar c = true) := by
  unfold run
  refine Result.holds_bind (new_holds input) fun p hp => ?_
  refine Result.holds_imp
    (parse_holds (input.length + 2) n vars p hp.1 hp.2.1 (by omega)) fun _ h => ?_
  rw [← hp.2.2]
  exact h

theorem run_outcome (input : List Char) (vars : Env) :
    ∃ r : Result Env, r ≠ .outOfFuel ∧ ((∃ env, r = .ok env) ∨ ∃ e, r = .error e) ∧
      ∀ m, 3 * input.length + 10 ≤ m → run m input vars = r := by
  have h0 := run_holds input vars (3 * input.length + 10) (le_refl _)
  refine ⟨run (3 * input.length + 10) input vars, h0.1, ?_, fun m hm => ?_⟩
  · cases hr : run (3 * input.length + 10) input vars with
    | ok env => exact Or.inl ⟨env, rfl⟩
    | error e => exact Or.inr ⟨e, rfl⟩
    | outOfFuel => exact absurd hr h0.1
  · exact Result.le_eq (run_mono hm input vars) h0.1

theorem run_error_kinds (fuel : Nat) (input : List Char) (vars : Env) (e : Error)
    (h : run fuel input vars = .error e) (hub : e ≠ Error.UndefinedBehaviour) :
    e = Error.InvalidCharacter ∨ e = Error.UnexpectedToken ∨ e = Error.UndefinedVariable ∨
      e = Error.OutOfRange := by
  have hM := run_holds input vars (max fuel (3 * input.length + 10)) (le_max_right _ _)
  have hrun := Result.le_error (run_mono (le_max_left fuel (3 * input.length + 10)) input vars) h
  have hia : e ≠ Error.InvalidArgument := by
    intro he
    rw [he] at hrun
    exact hM.2.1 hrun
  cases e
  · exact Or.inl rfl
  · exact Or.inr (Or.inl rfl)
  · exact Or.inr (Or.inr (Or.inl rfl))
  · exact Or.inr (Or.inr (Or.inr rfl))
  · exact absurd rfl hia
  · exact absurd rfl hub

theorem run_ok_valid (fuel : Nat) (input : List Char) (vars env : Env)
    (h : run fuel input vars = .ok env) : ∀ c ∈ input, validChar c = true := by
  have hM := run_holds input vars (max fuel (3 * input.length + 10)) (le_max_right _ _)
  have hrun := Result.le_ok (run_mono (le_max_left fuel (3 * input.length + 10)) input vars) h
  exact hM.2.2 env hrun

theorem run_invalid_fails (input : List Char) (vars : Env)
    (h : ∃ c ∈ input, validChar c = false) :
    ∃ e, ∀ m, 3 * input.length + 10 ≤ m → run m input vars = .error e := by
  obtain ⟨r, hr, hcase, hall⟩ := run_outcome input vars
  rcases hcase with ⟨env, rfl⟩ | ⟨e, rfl⟩
  · exfalso
    obtain ⟨c, hc, hv⟩ := h
    have := run_ok_valid _ input vars env (hall _ (le_refl _)) c hc
    rw [hv] at this
    cases this
  · exact ⟨e, hall⟩

theorem run_outcome_kinds (input : List Char) (vars : Env) :
    ∃ r : Result Env, r ≠ .outOfFuel ∧
      (∀ m, 3 * input.length + 10 ≤ m → run m input vars = r) ∧
      (r ≠ .error Error.UndefinedBehaviour →
        (∃ env, r = .ok env) ∨
        ∃ e, r = .error e ∧
          (e = Error.InvalidCharacter ∨ e = Error.UnexpectedToken ∨
            e = Error.UndefinedVariable ∨ e = Error.OutOfRange)) := by
  obtain ⟨r, hr, hcase, hall⟩ := run_outcome input vars
  refine ⟨r, hr, hall, fun hub => ?_⟩
  rcases hcase with ⟨env, rfl⟩ | ⟨e, rfl⟩
  · exact Or.inl ⟨env, rfl⟩
  · refine Or.inr ⟨e, rfl, ?_⟩
    have hne : e ≠ Error.UndefinedBehaviour := by
      intro he
      rw [he] at hub
      exact hub rfl
    exact run_error_kinds _ input vars e (hall _ (le_refl _)) hne

/-- C12, as stated: the program `99999999999` fails with the
`std::out_of_range` of `std::stoi`, which is none of the four kinds; and the
program `1/0` reports no DivisionByZero, its division having no defined
behaviour. -/
theorem literal_out_of_range :
    run 20 "99999999999".toList [] = .error Error.OutOfRange ∧
    parseFrom 20 "x=2147483648".toList [] = .error Error.OutOfRange ∧
    parseFrom 20 "x=2147483647".toList [] = .ok [("x".toList, 2147483647)] ∧
    run 20 "1/0".toList [] = .error Error.UndefinedBehaviour := by
  refine ⟨by decide, by decide, by decide, by decide⟩

/-- C12, amended: for every source text and store, a run that fails by a
thrown exception fails with "Invalid character", "Unexpected token",
"Undefined variable" or the `std::out_of_range` that `std::stoi` throws for a
literal above 2147483647 (never with `std::invalid_argument`); arithmetic
without defined behaviour throws nothing and is left aside. -/
theorem failure_kinds (fuel : Nat) (input : List Char) (vars : Env) (e : Error)
    (h : run fuel input vars = .error e) (hub : e ≠ Error.UndefinedBehaviour) :
    e = Error.InvalidCharacter ∨ e = Error.UnexpectedToken ∨ e = Error.UndefinedVariable ∨
      e = Error.OutOfRange :=
  run_error_kinds fuel input vars e h hub

/-- C12, instance: the program `99999999999`. -/
theorem failure_kinds_witness :
    run 20 "99999999999".toList [] = .error Error.OutOfRange ∧
    Error.OutOfRange ≠ Error.UndefinedBehaviour ∧
    (Error.OutOfRange = Error.InvalidCharacter ∨ Error.OutOfRange = Error.UnexpectedToken ∨
      Error.OutOfRange = Error.UndefinedVariable ∨ Error.OutOfRange = Error.OutOfRange) :=
  ⟨by decide, by decide,
    failure_kinds 20 "99999999999".toList [] Error.OutOfRange (by decide) (by decide)⟩

/-- C17, as stated: the run of the program `1/0` returns neither a store nor
a thrown error: for every sufficient fuel it ends in the division of line 149
with a zero divisor, where the behaviour is undefined; no fuel gives a store,
and no fuel gives one of the thrown errors. -/
theorem division_by_zero_run_returns_nothing :
    (∀ m, 20 ≤ m → run m "1/0".toList [] = .error Error.UndefinedBehaviour) ∧
    (∀ m env, run m "1/0".toList [] ≠ .ok env) ∧
    (∀ m e, run m "1/0".toList [] = .error e → e = Error.UndefinedBehaviour) := by
  have h20 : run 20 "1/0".toList [] = .error Error.UndefinedBehaviour := by decide
  refine ⟨fun m hm => Result.le_error (run_mono hm _ _) h20, fun m env h => ?_, fun m e h => ?_⟩
  · rcases Result.le_cases (fun n k hnk => run_mono hnk "1/0".toList []) h20 (by simp) m
      with h3 | h3 <;> rw [h3] at h <;> cases h
  · rcases Result.le_cases (fun n k hnk => run_mono hnk "1/0".toList []) h20 (by simp) m
      with h3 | h3
    · rw [h3] at h
      cases h
    · rw [h3] at h
      cases h
      rfl

/-- C17, amended: for every source text and store, constructing the parser
and calling `Parser::parse` never runs forever: with fuel `3 * length + 10`
the run has one outcome, unchanged by more fuel, and unless that outcome is
arithmetic without defined behaviour (signed overflow, a zero divisor) it is a
final store or one of the thrown errors "Invalid character", "Unexpected
token", "Undefined variable" and the `std::out_of_range` of `std::stoi`.  The
reason: every call of `Parser::statement` on a scanned state stops or returns
with something consumed, and the loop of the while branch, entered with a
non-zero guard, fails at `eat(WHILE)` or at a character that does not scan. -/
theorem interpreter_total_unless_undefined (input : List Char) (vars : Env) :
    (∃ r : Result Env, r ≠ .outOfFuel ∧
      (∀ m, 3 * input.length + 10 ≤ m → run m input vars = r) ∧
      (r ≠ .error Error.UndefinedBehaviour →
        (∃ env, r = .ok env) ∨
        ∃ e, r = .error e ∧
          (e = Error.InvalidCharacter ∨ e = Error.UnexpectedToken ∨
            e = Error.UndefinedVariable ∨ e = Error.OutOfRange))) ∧
    (∀ (n : Nat) (p : Parser), p.inv → 3 * (p.measure + 1) + 3 ≤ n →
      (Parser.statement n vars p).holds (fun a => a.2.measure < p.measure)) ∧
    (∀ (v : Int) (p : Parser), v ≠ 0 →
      ∃ err, (err = Error.UnexpectedToken ∨ err = Error.InvalidCharacter) ∧
        ∃ N, ∀ m, N ≤ m → Parser.whileLoop m vars v p = .error err) :=
  ⟨run_outcome_kinds input vars,
    fun n p hinv hn =>
      Result.holds_imp (statement_holds vars (p.measure + 1) n p hinv (by omega) hn)
        fun _ ha => ha.2.1,
    fun v p hv => whileLoop_nonzero vars v p hv⟩

/-- C18: for every source text and store, if the run (constructor, then
`Parser::parse`) succeeds, every character of the text is a digit, a letter,
an underscore or one of `+ - * / ( ) = ,`; and a text that contains any other
character, a space or a newline for instance, at any place, makes the run
fail. -/
theorem success_needs_valid_text (fuel : Nat) (input : List Char) (vars env : Env)
    (h : run fuel input vars = .ok env) :
    (∀ c ∈ input, validChar c = true) ∧
    ∀ (text : List Char) (store : Env), (∃ c ∈ text, validChar c = false) →
      ∃ e, ∀ m, 3 * text.length + 10 ≤ m → run m text store = .error e :=
  ⟨run_ok_valid fuel input vars env h, fun text store hc => run_invalid_fails text store hc⟩

/-- C18, instance: the program `0x=5` succeeds; `0if(0)y z` has a space inside
the skipped body and fails. -/
theorem success_needs_valid_text_witness :
    run 20 "0x=5".toList [] = .ok [("x".toList, 5)] ∧
    validChar ' ' = false ∧ validChar (Char.ofNat 10) = false ∧
    run 20 "0if(0)y z".toList [] = .error Error.InvalidCharacter ∧
    (∀ c ∈ "0x=5".toList, validChar c = true) ∧
    ∀ (text : List Char) (store : Env), (∃ c ∈ text, validChar c = false) →
      ∃ e, ∀ m, 3 * text.length + 10 ≤ m → run m text store = .error e :=
  ⟨by decide, by decide, by decide, by decide,
    success_needs_valid_text 20 "0x=5".toList [] [("x".toList, 5)] (by decide)⟩

end ROPL
